import Mathlib

/-!
# soft-realtime-loop: producer, paced consumer and driver loop

A shallow embedding of `src/main.cpp`.

* `uint32_t` values are natural numbers below `U32`; the one arithmetic
  operation that can overflow (`_current_payload_count += 1`) is reduced
  modulo `U32` explicitly.
* `enum WORK : uint8_t` is a byte: `SMALL = 0`, `HEAVY = 1`, and the other 254
  values are the ones the `default:` branch of `Consumer::do_work` receives.
* `std::queue<enum WORK>` is a list, oldest element first.
* Durations (`double` milliseconds in the source) are rationals, and the time
  the clock measures around the simulated work is an input `e` of `do_work`.
  `Consumer.do_work` computes with them exactly; `Consumer.do_work_double`
  rounds the result of every operation to a binary64 number, as the code does.
* A call of a C++ function either returns, reports a failure, or has
  undefined behaviour: `Outcome`.
-/

namespace SoftRealtimeLoop

/-- Number of values of a `uint32_t`. -/
def U32 : Nat := 2 ^ 32

/-- The byte behind `enum WORK : uint8_t`. -/
abbrev WORK := Fin 256

/-- Enumerator `SMALL = 0`. -/
def WORK.SMALL : WORK := 0

/-- Enumerator `HEAVY = 1`. -/
def WORK.HEAVY : WORK := 1

/-- Failure names of the specification's error taxonomy. The source has no
`throw`, `assert` or `abort`: none of its functions reports any of these. -/
inductive Fault where
  | EmptyQueue
  | ConfigurationError
deriving DecidableEq, Repr

/-- What a call of a C++ member function on a state `σ` can do: return a value
and leave a state, report a failure and leave a state, or run into undefined
behaviour, after which the language promises neither a value nor a state. -/
inductive Outcome (σ α : Type) where
  | returns (value : α) (state : σ)
  | throws (error : Fault) (state : σ)
  | undefined
deriving DecidableEq, Repr

/-- The call returns, and the state it leaves satisfies `P`. -/
def Outcome.returns_into {σ : Type} (o : Outcome σ Unit) (P : σ → Prop) : Prop :=
  match o with
  | Outcome.returns _ s => P s
  | Outcome.throws _ _ => False
  | Outcome.undefined => False

/-! ## Consumer -/

/-- Data members of `class Consumer`. -/
structure Consumer where
  _small_work_time_ms : Nat
  _heavy_work_time_ms : Nat
  _target_frequency_ms : ℚ
  _lag : ℚ
deriving DecidableEq

/-- Constructor `Consumer::Consumer`: the target period is
`1000.0 / target_frequency_hz`, the lag starts at `0.0`. The quotient is the
exact one for `target_frequency_hz > 0`; for `0` the source's `double`
division has no rational value and this definition is not meant there:
`target_period_ms` and `Consumer.construct` cover that case. -/
def Consumer.new (small_work_time_ms heavy_work_time_ms target_frequency_hz : Nat) :
    Consumer :=
  { _small_work_time_ms := small_work_time_ms
    _heavy_work_time_ms := heavy_work_time_ms
    _target_frequency_ms := 1000 / (target_frequency_hz : ℚ)
    _lag := 0 }

/-- Everything one call of `Consumer::do_work` does: the consumer it leaves,
the `sleep_for` of the `switch` (simulated work, `none` in the `default:`
branch) and the `sleep_for` of the pacing branch (`none` when the `else`
branch runs). -/
structure DoWork where
  consumer : Consumer
  work_sleep : Option Nat
  pacing_sleep : Option ℚ
deriving DecidableEq

/-- The `switch (work)` of `Consumer::do_work`: which simulated work sleep is
performed. -/
def Consumer.work_switch (c : Consumer) (work : WORK) : Option Nat :=
  if work = WORK.SMALL then some c._small_work_time_ms
  else if work = WORK.HEAVY then some c._heavy_work_time_ms
  else none

/-- Member function `Consumer::do_work`, with `e` the measured
`work_time.count()` (`end - start`, in milliseconds). -/
def Consumer.do_work (c : Consumer) (work : WORK) (e : ℚ) : DoWork :=
  let sleep_time_ms : ℚ := c._target_frequency_ms - e
  let gained_time : ℚ := sleep_time_ms + c._lag
  if gained_time > 0 then
    { consumer := { c with _lag := 0 }
      work_sleep := c.work_switch work
      pacing_sleep := some gained_time }
  else
    { consumer := { c with _lag := gained_time }
      work_sleep := c.work_switch work
      pacing_sleep := none }

/-! ## Sequences of `do_work` calls -/

/-- The consumer a sequence of `do_work` calls leaves; each call is given by
its work kind and its measured work time. -/
def Consumer.do_work_calls (c : Consumer) : List (WORK × ℚ) → Consumer
  | [] => c
  | call :: rest => Consumer.do_work_calls (c.do_work call.1 call.2).consumer rest

/-- Length in milliseconds of the pacing sleep of a call, `0` when the call
does not sleep. -/
def DoWork.pacing_ms (r : DoWork) : ℚ :=
  r.pacing_sleep.getD 0

/-! ## Producer -/

/-- Data members of `class Producer`; `_buffered_payload` lists the queue
from its front (oldest label) to its back. -/
structure Producer where
  _payload_count : Nat
  _producer_frequency_ms : Nat
  _buffered_payload : List WORK
  _heavy_work_every_n_ticks : Nat
  _current_payload_count : Nat
deriving DecidableEq, Repr

/-- Constructor `Producer::Producer`: stores its three arguments, starts the
counter at `0` and the queue empty. It has no check on any argument. -/
def Producer.new (payload_count producer_frequency_ms heavy_work_every_n_ticks : Nat) :
    Producer :=
  { _payload_count := payload_count
    _producer_frequency_ms := producer_frequency_ms
    _buffered_payload := []
    _heavy_work_every_n_ticks := heavy_work_every_n_ticks
    _current_payload_count := 0 }

/-- Call `_buffered_payload.push(work)`: the label goes to the back. -/
def Producer.push (p : Producer) (work : WORK) : Producer :=
  { p with _buffered_payload := p._buffered_payload ++ [work] }

/-- Member function `Producer::done`. -/
def Producer.done (p : Producer) : Bool :=
  p._payload_count == p._current_payload_count

/-- Member function `Producer::has_payload`. -/
def Producer.has_payload (p : Producer) : Bool :=
  !p._buffered_payload.isEmpty

/-- Member function `Producer::get_payload`: `front()` then `pop()`, with no
test of emptiness. On an empty `std::queue` both calls have undefined
behaviour. -/
def Producer.get_payload (p : Producer) : Outcome Producer WORK :=
  match p._buffered_payload with
  | [] => Outcome.undefined
  | work :: rest => Outcome.returns work { p with _buffered_payload := rest }

/-- The `if`/`else` of the loop body of `Producer::run` (after the sleep):
pushes `HEAVY` when `_current_payload_count % _heavy_work_every_n_ticks == 0`
and `SMALL` otherwise. The remainder by `0` is undefined behaviour. -/
def Producer.classify_push (p : Producer) : Outcome Producer Unit :=
  if p._heavy_work_every_n_ticks = 0 then Outcome.undefined
  else if p._current_payload_count % p._heavy_work_every_n_ticks = 0 then
    Outcome.returns () (p.push WORK.HEAVY)
  else
    Outcome.returns () (p.push WORK.SMALL)

/-- Statement `_current_payload_count += 1` on a `uint32_t`. -/
def Producer.increment (p : Producer) : Producer :=
  { p with _current_payload_count := (p._current_payload_count + 1) % U32 }

/-- One iteration of the `while` body of `Producer::run`: sleep (no effect on
the members), classify and push, increment. -/
def Producer.run_body (p : Producer) : Outcome Producer Unit :=
  match p.classify_push with
  | Outcome.returns _ p1 => Outcome.returns () p1.increment
  | Outcome.throws err p1 => Outcome.throws err p1
  | Outcome.undefined => Outcome.undefined

/-- The `while (!done())` loop of `Producer::run` with a bound on the number
of loop tests: `none` when the bound is used up before the loop ends. The
value returned with the final state is the number of iterations performed,
`iterations` being those performed before. -/
def Producer.run_loop : Nat → Nat → Producer → Option (Outcome Producer Nat)
  | 0, _, _ => none
  | fuel + 1, iterations, p =>
    if p.done then some (Outcome.returns iterations p)
    else
      match p.run_body with
      | Outcome.returns _ p1 => Producer.run_loop fuel (iterations + 1) p1
      | Outcome.throws err p1 => some (Outcome.throws err p1)
      | Outcome.undefined => some Outcome.undefined

/-- Member function `Producer::run`. -/
def Producer.run (fuel : Nat) (p : Producer) : Option (Outcome Producer Nat) :=
  Producer.run_loop fuel 0 p

/-- The label of tick `t` for heavy-work period `n`, as the condition of
`Producer::run` selects it. -/
def tick_label (n t : Nat) : WORK :=
  if t % n = 0 then WORK.HEAVY else WORK.SMALL

/-- Calls `get_payload` `count` times in a row, collecting the labels
returned, oldest call first; stops at the first call that does not return. -/
def Producer.get_payloads : Nat → Producer → Outcome Producer (List WORK)
  | 0, p => Outcome.returns [] p
  | count + 1, p =>
    match p.get_payload with
    | Outcome.returns work p1 =>
      match Producer.get_payloads count p1 with
      | Outcome.returns works p2 => Outcome.returns (work :: works) p2
      | Outcome.throws err p2 => Outcome.throws err p2
      | Outcome.undefined => Outcome.undefined
    | Outcome.throws err p1 => Outcome.throws err p1
    | Outcome.undefined => Outcome.undefined

/-- Pushes the labels of `works` in order. -/
def Producer.push_all (p : Producer) (works : List WORK) : Producer :=
  works.foldl Producer.push p

/-- The member functions of `Producer` a caller can invoke; `run` carries the
bound on loop tests. -/
inductive ProducerCall where
  | run (fuel : Nat)
  | get_payload
  | has_payload
deriving DecidableEq, Repr

/-- The producer one call leaves, `none` when the call does not return (bound
used up, failure or undefined behaviour). `has_payload` only reads. -/
def Producer.call (p : Producer) : ProducerCall → Option Producer
  | ProducerCall.run fuel =>
    match p.run fuel with
    | some (Outcome.returns _ p1) => some p1
    | _ => none
  | ProducerCall.get_payload =>
    match p.get_payload with
    | Outcome.returns _ p1 => some p1
    | _ => none
  | ProducerCall.has_payload => some p

/-- The producer a sequence of calls leaves, `none` as soon as one of them
does not return. -/
def Producer.calls (p : Producer) : List ProducerCall → Option Producer
  | [] => some p
  | c :: cs =>
    match p.call c with
    | some p1 => Producer.calls p1 cs
    | none => none

/-! ## Driver loop of `main` with the producer thread -/

/-- Where the producer thread stands in `Producer::run`: before the loop test
(line 65), before the sleep and the classify-and-push (lines 67-76), before
the increment (line 77), or after the loop. -/
inductive ProducerPc where
  | at_while
  | at_push
  | at_increment
  | returned
deriving DecidableEq, Repr

/-- Where the driver thread stands in the loop of `main`: before the loop
test (line 198), before the `if` (line 200), before `get_payload` (line 205,
followed by `do_work` and the count), or after the loop. -/
inductive DriverPc where
  | at_while
  | at_if
  | at_get
  | exited
deriving DecidableEq, Repr

/-- State of the two threads of `main`. `popped` is not a variable of the
program: it records the labels `get_payload` has returned, oldest first. -/
structure System where
  producer : Producer
  consumer : Consumer
  consumer_finished_payloads : Nat
  producer_pc : ProducerPc
  driver_pc : DriverPc
  popped : List WORK
deriving DecidableEq

/-- Which thread moves next; a driver move carries the work time its
`do_work` call would measure. -/
inductive Move where
  | producer
  | driver (e : ℚ)
deriving DecidableEq

/-- One statement of the producer thread. A thread that has returned stays
where it is. -/
def System.producer_step (s : System) : Outcome System Unit :=
  match s.producer_pc with
  | ProducerPc.at_while =>
    Outcome.returns ()
      { s with producer_pc :=
          if s.producer.done then ProducerPc.returned else ProducerPc.at_push }
  | ProducerPc.at_push =>
    match s.producer.classify_push with
    | Outcome.returns _ p =>
      Outcome.returns () { s with producer := p, producer_pc := ProducerPc.at_increment }
    | Outcome.throws err p => Outcome.throws err { s with producer := p }
    | Outcome.undefined => Outcome.undefined
  | ProducerPc.at_increment =>
    Outcome.returns ()
      { s with producer := s.producer.increment, producer_pc := ProducerPc.at_while }
  | ProducerPc.returned => Outcome.returns () s

/-- One step of the driver thread: the loop test, the `if`, or the body of
the `if` (`get_payload`, `do_work`, `consumer_finished_payloads += 1`). A
thread that has left the loop stays where it is. -/
def System.driver_step (s : System) (e : ℚ) : Outcome System Unit :=
  match s.driver_pc with
  | DriverPc.at_while =>
    Outcome.returns ()
      { s with driver_pc := if s.producer.done then DriverPc.exited else DriverPc.at_if }
  | DriverPc.at_if =>
    Outcome.returns ()
      { s with driver_pc :=
          if s.producer.has_payload then DriverPc.at_get else DriverPc.at_while }
  | DriverPc.at_get =>
    match s.producer.get_payload with
    | Outcome.returns work p =>
      Outcome.returns ()
        { s with
          producer := p
          consumer := (s.consumer.do_work work e).consumer
          consumer_finished_payloads := (s.consumer_finished_payloads + 1) % U32
          driver_pc := DriverPc.at_while
          popped := s.popped ++ [work] }
    | Outcome.throws err p => Outcome.throws err { s with producer := p }
    | Outcome.undefined => Outcome.undefined
  | DriverPc.exited => Outcome.returns () s

/-- One move of the interleaving. -/
def System.step (s : System) : Move → Outcome System Unit
  | Move.producer => s.producer_step
  | Move.driver e => s.driver_step e

/-- A finite interleaving, move by move; it stops at the first move that
does not return. -/
def System.exec (s : System) : List Move → Outcome System Unit
  | [] => Outcome.returns () s
  | m :: ms =>
    match s.step m with
    | Outcome.returns _ s1 => System.exec s1 ms
    | Outcome.throws err s1 => Outcome.throws err s1
    | Outcome.undefined => Outcome.undefined

/-- The state of `main` when the producer thread has just been started and
the driver loop is about to be entered. -/
def System.init (payload_count producer_frequency_ms heavy_work_every_n_ticks
    small_work_time_ms heavy_work_time_ms target_frequency_hz : Nat) : System :=
  { producer := Producer.new payload_count producer_frequency_ms heavy_work_every_n_ticks
    consumer := Consumer.new small_work_time_ms heavy_work_time_ms target_frequency_hz
    consumer_finished_payloads := 0
    producer_pc := ProducerPc.at_while
    driver_pc := DriverPc.at_while
    popped := [] }

/-- The initial state with the constants of `main` (lines 183-191). -/
def main_system : System :=
  System.init 100 10 5 2 20 100

/-- Number of labels the producer thread has pushed so far: the counter, plus
one between a push and its increment. -/
def System.pushed (s : System) : Nat :=
  if s.producer_pc = ProducerPc.at_increment then s.producer._current_payload_count + 1
  else s.producer._current_payload_count

/-- What holds in every state the two threads can reach, for payload count
`N` and heavy-work period `n`. -/
def System.Inv (N n : Nat) (s : System) : Prop :=
  s.producer._payload_count = N ∧
  s.producer._heavy_work_every_n_ticks = n ∧
  s.producer._current_payload_count ≤ N ∧
  (s.producer_pc = ProducerPc.at_push ∨ s.producer_pc = ProducerPc.at_increment →
    s.producer._current_payload_count < N) ∧
  (s.producer_pc = ProducerPc.returned → s.producer._current_payload_count = N) ∧
  s.popped ++ s.producer._buffered_payload = (List.range s.pushed).map (tick_label n) ∧
  (s.driver_pc = DriverPc.at_get → s.producer._buffered_payload ≠ []) ∧
  (s.driver_pc = DriverPc.exited → s.producer._current_payload_count = N) ∧
  s.consumer_finished_payloads = s.popped.length

/-- One producer iteration (loop test, push, increment) followed by one driver
iteration (loop test, `if`, body) whose `do_work` measures `e`. -/
def round_robin_round (e : ℚ) : List Move :=
  [Move.producer, Move.producer, Move.producer, Move.driver e, Move.driver e, Move.driver e]

/-- The schedule of `k` such rounds in a row. -/
def round_robin : Nat → ℚ → List Move
  | 0, _ => []
  | k + 1, e => round_robin_round e ++ round_robin k e

/-! ## Construction as a call -/

/-- The call of the constructor `Producer::Producer` as an outcome: a member
initialiser list and an empty body, with no check, so the call returns. -/
def Producer.construct (payload_count producer_frequency_ms heavy_work_every_n_ticks : Nat) :
    Outcome Producer Unit :=
  Outcome.returns ()
    (Producer.new payload_count producer_frequency_ms heavy_work_every_n_ticks)

/-- A `double` number of milliseconds: a finite value, taken exactly, or the
IEEE value `+infinity`. -/
inductive Millis where
  | finite (ms : ℚ)
  | infinite
deriving DecidableEq

/-- The member initialiser `1000.0 / static_cast<double>(target_frequency_hz)`
of `Consumer::Consumer` as IEEE `double` division computes it: dividing
`1000.0` by `0.0` gives `+infinity`, any other divisor the quotient. -/
def target_period_ms (target_frequency_hz : Nat) : Millis :=
  if target_frequency_hz = 0 then Millis.infinite
  else Millis.finite (1000 / (target_frequency_hz : ℚ))

/-- Data members of a `Consumer` as its constructor leaves them, the target
period being any `double` value. -/
structure ConsumerMembers where
  _small_work_time_ms : Nat
  _heavy_work_time_ms : Nat
  _target_frequency_ms : Millis
  _lag : ℚ
deriving DecidableEq

/-- The call of the constructor `Consumer::Consumer` as an outcome: a member
initialiser list and an empty body, with no check, so the call returns. -/
def Consumer.construct (small_work_time_ms heavy_work_time_ms target_frequency_hz : Nat) :
    Outcome ConsumerMembers Unit :=
  Outcome.returns ()
    { _small_work_time_ms := small_work_time_ms
      _heavy_work_time_ms := heavy_work_time_ms
      _target_frequency_ms := target_period_ms target_frequency_hz
      _lag := 0 }

/-! ## Closed form of the lag -/

/-- The suffix sum `sum_{i=k..N} (T - e_i)` of the closed form, for measured
work times `e_1, ..., e_N` and `k` counted from `1`. -/
def suffix_slack_sum (T : ℚ) (es : List ℚ) (k : Nat) : ℚ :=
  ((es.drop (k - 1)).map fun e => T - e).sum

/-- The closed form as its statement reads: the minimum of `0` and of the
suffix sums for `1 ≤ k ≤ N`. -/
def lag_closed_form (T : ℚ) (es : List ℚ) : ℚ :=
  ((List.range es.length).map fun j => suffix_slack_sum T es (j + 1)).foldr min 0

/-! ## Producer ticks interleaved with `get_payload` calls -/

/-- A producer together with the labels `get_payload` has returned so far,
oldest first; the list is not a variable of the program. -/
structure Stream where
  producer : Producer
  returned : List WORK
deriving DecidableEq, Repr

/-- What happens next: one iteration of the loop of `Producer::run`, or one
`get_payload` call of the reader. -/
inductive StreamOp where
  | tick
  | get_payload
deriving DecidableEq, Repr

/-- One operation. A tick is an iteration of `while (!done())`, so when
`done()` holds there is none and the state stays; the reader calls
`get_payload` on a non-empty buffer only, so on an empty one the state stays. -/
def Stream.step (s : Stream) : StreamOp → Outcome Stream Unit
  | StreamOp.tick =>
    if s.producer.done then Outcome.returns () s
    else
      match s.producer.run_body with
      | Outcome.returns _ p => Outcome.returns () { s with producer := p }
      | Outcome.throws err p => Outcome.throws err { s with producer := p }
      | Outcome.undefined => Outcome.undefined
  | StreamOp.get_payload =>
    if s.producer.has_payload then
      match s.producer.get_payload with
      | Outcome.returns work p =>
        Outcome.returns () { producer := p, returned := s.returned ++ [work] }
      | Outcome.throws err p => Outcome.throws err { s with producer := p }
      | Outcome.undefined => Outcome.undefined
    else Outcome.returns () s

/-- A finite sequence of operations; it stops at the first one that does not
return. -/
def Stream.exec (s : Stream) : List StreamOp → Outcome Stream Unit
  | [] => Outcome.returns () s
  | op :: ops =>
    match s.step op with
    | Outcome.returns _ s1 => Stream.exec s1 ops
    | Outcome.throws err s1 => Outcome.throws err s1
    | Outcome.undefined => Outcome.undefined

/-- A freshly constructed producer from which nothing has been read. -/
def Stream.fresh (payload_count producer_frequency_ms heavy_work_every_n_ticks : Nat) :
    Stream :=
  { producer := Producer.new payload_count producer_frequency_ms heavy_work_every_n_ticks
    returned := [] }

/-- What holds of every state reached by ticks and `get_payload` calls, for
payload count `N` and heavy-work period `n`. -/
def Stream.Inv (N n : Nat) (s : Stream) : Prop :=
  s.producer._payload_count = N ∧
  s.producer._heavy_work_every_n_ticks = n ∧
  s.producer._current_payload_count ≤ N ∧
  s.returned ++ s.producer._buffered_payload
    = (List.range s.producer._current_payload_count).map (tick_label n)

/-! ## IEEE double arithmetic

The `double` operations of `Consumer` (`1000.0 / hz`, `T - e`, `sleep + lag`)
round the exact result to the nearest binary64 number, ties to even (the
default rounding, each operation rounded on its own). A finite `double` is
taken as the rational it denotes; a result that overflows to an infinity is
left out (`none`). -/

/-- Nearest integer, a tie going to the even one. -/
def round_half_even (q : ℚ) : ℤ :=
  if q - ⌊q⌋ < 1 / 2 then ⌊q⌋
  else if 1 / 2 < q - ⌊q⌋ then ⌊q⌋ + 1
  else if ⌊q⌋ % 2 = 0 then ⌊q⌋
  else ⌊q⌋ + 1

/-- Binary exponent at which a magnitude `a` is rounded: `⌊log₂ a⌋`, and the
least normal exponent `-1022` below it (subnormal numbers). -/
def double_exponent (a : ℚ) : ℤ :=
  max (Int.log 2 a) (-1022)

/-- Spacing of the binary64 numbers around a magnitude `a`: `53` significant
bits. -/
def double_ulp (a : ℚ) : ℚ :=
  2 ^ (double_exponent a - 52)

/-- Rounding of a magnitude `a ≥ 0` to the nearest multiple of its spacing. -/
def round_magnitude (a : ℚ) : ℚ :=
  round_half_even (a / double_ulp a) * double_ulp a

/-- Rounding to nearest, ties to even, with `53` significant bits; it is the
IEEE binary64 result whenever that result is finite, that is whenever the
value is below `2 ^ 1024` in magnitude. -/
def round_double (x : ℚ) : ℚ :=
  if x < 0 then -round_magnitude (-x) else round_magnitude x

/-- Constructor `Consumer::Consumer` in `double` arithmetic: the target period
is the rounded quotient `1000.0 / target_frequency_hz`; `none` for frequency
`0`, where the quotient is `+infinity` and not a number of milliseconds. -/
def Consumer.new_double (small_work_time_ms heavy_work_time_ms target_frequency_hz : Nat) :
    Option Consumer :=
  if target_frequency_hz = 0 then none
  else some
    { _small_work_time_ms := small_work_time_ms
      _heavy_work_time_ms := heavy_work_time_ms
      _target_frequency_ms := round_double (1000 / (target_frequency_hz : ℚ))
      _lag := 0 }

/-- Member function `Consumer::do_work` with the subtraction of line 152 and
the addition of line 154 each rounded to `53` bits, the exponent range taken
as unbounded above. -/
def Consumer.do_work_rounded (c : Consumer) (work : WORK) (e : ℚ) : DoWork :=
  let sleep_time_ms : ℚ := round_double (c._target_frequency_ms - e)
  let gained_time : ℚ := round_double (sleep_time_ms + c._lag)
  if gained_time > 0 then
    { consumer := { c with _lag := 0 }
      work_sleep := c.work_switch work
      pacing_sleep := some gained_time }
  else
    { consumer := { c with _lag := gained_time }
      work_sleep := c.work_switch work
      pacing_sleep := none }

/-- Member function `Consumer::do_work` in `double` arithmetic, `e` being the
measured `work_time.count()`: `none` when `sleep_time_ms` or `gained_time`
overflows to an infinity, which is outside this embedding. -/
def Consumer.do_work_double (c : Consumer) (work : WORK) (e : ℚ) : Option DoWork :=
  if |round_double (c._target_frequency_ms - e)| < 2 ^ 1024 ∧
      |round_double (round_double (c._target_frequency_ms - e) + c._lag)| < 2 ^ 1024 then
    some (c.do_work_rounded work e)
  else none

/-- The consumer a sequence of `do_work` calls leaves in `double` arithmetic,
`none` as soon as one call overflows. -/
def Consumer.do_work_calls_double (c : Consumer) : List (WORK × ℚ) → Option Consumer
  | [] => some c
  | call :: rest =>
    (c.do_work_double call.1 call.2).bind fun r =>
      Consumer.do_work_calls_double r.consumer rest

/-- Time a sequence of `do_work` calls takes in `double` arithmetic: measured
work time plus pacing sleep, call by call, added up exactly. -/
def Consumer.total_time_double (c : Consumer) : List (WORK × ℚ) → Option ℚ
  | [] => some 0
  | call :: rest =>
    (c.do_work_double call.1 call.2).bind fun r =>
      (Consumer.total_time_double r.consumer rest).map fun t => call.2 + r.pacing_ms + t

/-- Rounding error of one call: what the subtraction of line 152 and the
addition of line 154 add to their exact results. -/
def Consumer.rounding_error (c : Consumer) (e : ℚ) : ℚ :=
  (round_double (c._target_frequency_ms - e) - (c._target_frequency_ms - e))
    + (round_double (round_double (c._target_frequency_ms - e) + c._lag)
        - (round_double (c._target_frequency_ms - e) + c._lag))

/-- Rounding errors of a sequence of calls, added up. -/
def Consumer.rounding_errors (c : Consumer) : List (WORK × ℚ) → ℚ
  | [] => 0
  | call :: rest =>
    c.rounding_error call.2
      + Consumer.rounding_errors (c.do_work_rounded call.1 call.2).consumer rest

/-- The sum `start + sum_i (T - e_i)` as the code accumulates it call by call
when the lag is never reset: each difference and each partial sum rounded. -/
def double_accumulate (T : ℚ) (es : List ℚ) (start : ℚ) : ℚ :=
  es.foldl (fun acc e => round_double (round_double (T - e) + acc)) start

/-- The suffix sum `sum_{i=k..N} (T - e_i)`, `k` counted from `1`, accumulated
in `double` arithmetic from `0` in call order. -/
def double_suffix_sum (T : ℚ) (es : List ℚ) (k : Nat) : ℚ :=
  double_accumulate T (es.drop (k - 1)) 0

/-- The minimum of `0` and of the suffix sums for `1 ≤ k ≤ N`, the sums taken
in `double` arithmetic. -/
def double_lag_closed_form (T : ℚ) (es : List ℚ) : ℚ :=
  ((List.range es.length).map fun j => double_suffix_sum T es (j + 1)).foldr min 0

/-- The quantity `k * T - d` for debt `d = e0 - T`, as the code accumulates it
in `double` arithmetic: the slow call leaves `T - e0`, every later call with
measured work time `0` adds `T`. -/
def double_debt (T e0 : ℚ) : Nat → ℚ
  | 0 => round_double (round_double (T - e0) + 0)
  | k + 1 => round_double (round_double (T - 0) + double_debt T e0 k)

/-! ## Theorems -/

/-- C3. Work classification: with heavy-work period `n > 0` and tick counter
`t`, the classify-and-push step of `Producer::run` returns and appends exactly
one label to the back of the queue; that label is `HEAVY` if and only if
`t mod n = 0`, and `SMALL` otherwise. -/
theorem classify_push_label (p : Producer) (h : 0 < p._heavy_work_every_n_ticks) :
    ∃ w : WORK,
      p.classify_push = Outcome.returns () (p.push w) ∧
      (p.push w)._buffered_payload = p._buffered_payload ++ [w] ∧
      (w = WORK.HEAVY ↔ p._current_payload_count % p._heavy_work_every_n_ticks = 0) ∧
      (w = WORK.SMALL ↔ ¬ p._current_payload_count % p._heavy_work_every_n_ticks = 0) := by
  have hn : p._heavy_work_every_n_ticks ≠ 0 := Nat.pos_iff_ne_zero.mp h
  have hne : WORK.HEAVY ≠ WORK.SMALL := by decide
  by_cases hm : p._current_payload_count % p._heavy_work_every_n_ticks = 0
  · exact ⟨WORK.HEAVY, by simp [Producer.classify_push, hn, hm], rfl, by simp [hm],
      by simp [hm, hne]⟩
  · exact ⟨WORK.SMALL, by simp [Producer.classify_push, hn, hm], rfl, by simp [hm, hne.symm],
      by simp [hm]⟩

/-- Witness of C3 at tick `5` with period `5` (a heavy tick). -/
theorem classify_push_label_witness :
    ∃ w : WORK,
      ({ Producer.new 10 10 5 with _current_payload_count := 5 } : Producer).classify_push
        = Outcome.returns ()
            (({ Producer.new 10 10 5 with _current_payload_count := 5 } : Producer).push w) ∧
      (({ Producer.new 10 10 5 with _current_payload_count := 5 } : Producer).push w
        )._buffered_payload = [] ++ [w] ∧
      (w = WORK.HEAVY ↔ 5 % 5 = 0) ∧ (w = WORK.SMALL ↔ ¬ 5 % 5 = 0) :=
  classify_push_label { Producer.new 10 10 5 with _current_payload_count := 5 } (by decide)

/-- The loop body in terms of `tick_label`, for a non-zero period. -/
theorem run_body_eq (p : Producer) (hn : 0 < p._heavy_work_every_n_ticks) :
    p.run_body = Outcome.returns ()
      { p with
        _buffered_payload := p._buffered_payload ++
          [tick_label p._heavy_work_every_n_ticks p._current_payload_count]
        _current_payload_count := (p._current_payload_count + 1) % U32 } := by
  have hn0 : p._heavy_work_every_n_ticks ≠ 0 := Nat.pos_iff_ne_zero.mp hn
  by_cases hm : p._current_payload_count % p._heavy_work_every_n_ticks = 0
  · simp [Producer.run_body, Producer.classify_push, Producer.increment, Producer.push,
      tick_label, hn0, hm]
  · simp [Producer.run_body, Producer.classify_push, Producer.increment, Producer.push,
      tick_label, hn0, hm]

/-- The loop of `Producer::run` from any state that is `d` ticks short of its
target: it ends after `d` more iterations, having appended the labels of the
ticks `_current_payload_count, ..., _payload_count - 1`. -/
theorem run_loop_from (d : Nat) :
    ∀ (fuel iterations : Nat) (p : Producer),
      0 < p._heavy_work_every_n_ticks →
      p._current_payload_count + d = p._payload_count →
      p._payload_count < U32 →
      d < fuel →
      Producer.run_loop fuel iterations p = some (Outcome.returns (iterations + d)
        { p with
          _buffered_payload := p._buffered_payload ++
            (List.range' p._current_payload_count d).map
              (tick_label p._heavy_work_every_n_ticks)
          _current_payload_count := p._payload_count }) := by
  induction d with
  | zero =>
    intro fuel iterations p _ hd _ hfuel
    obtain ⟨f, rfl⟩ : ∃ f, fuel = f + 1 := ⟨fuel - 1, by omega⟩
    have hdone : p.done = true := by simp [Producer.done]; omega
    cases p
    simp_all [Producer.run_loop]
  | succ d ih =>
    intro fuel iterations p hn hd hN hfuel
    obtain ⟨f, rfl⟩ : ∃ f, fuel = f + 1 := ⟨fuel - 1, by omega⟩
    have hdone : p.done = false := by simp [Producer.done]; omega
    have hwrap : (p._current_payload_count + 1) % U32 = p._current_payload_count + 1 :=
      Nat.mod_eq_of_lt (by omega)
    rw [Producer.run_loop, hdone]
    simp only [Bool.false_eq_true, if_false, run_body_eq p hn, hwrap]
    refine (ih f (iterations + 1) _ ?_ ?_ ?_ ?_).trans ?_
    · exact hn
    · show p._current_payload_count + 1 + d = p._payload_count
      omega
    · exact hN
    · omega
    · simp [List.range'_succ, Nat.add_assoc, Nat.add_comm 1 d]

/-- C4. `Producer::run` on a freshly constructed producer with a 32-bit
`payload_count` and `heavy_every_n > 0` terminates (any bound of more than
`payload_count` loop tests suffices) after exactly `payload_count`
iterations; the queue then holds exactly `payload_count` labels, the `i`-th
being the classification of tick `i`, `_current_payload_count` equals
`payload_count` and `done()` holds. -/
theorem run_terminates (payload_count producer_frequency_ms heavy_every_n fuel : Nat)
    (hN : payload_count < U32) (hn : 0 < heavy_every_n) (hfuel : payload_count < fuel) :
    ∃ p : Producer,
      (Producer.new payload_count producer_frequency_ms heavy_every_n).run fuel
        = some (Outcome.returns payload_count p) ∧
      p._buffered_payload = (List.range payload_count).map (tick_label heavy_every_n) ∧
      p._buffered_payload.length = payload_count ∧
      (∀ i, i < payload_count → p._buffered_payload[i]? = some (tick_label heavy_every_n i)) ∧
      p._current_payload_count = payload_count ∧
      p._payload_count = payload_count ∧
      p.done = true := by
  have h := run_loop_from payload_count fuel 0
    (Producer.new payload_count producer_frequency_ms heavy_every_n) hn
    (by simp [Producer.new]) hN hfuel
  refine ⟨_, by simpa [Producer.run] using h, ?_, ?_, ?_, rfl, rfl, ?_⟩
  · simp [Producer.new, List.range_eq_range']
  · simp [Producer.new]
  · intro i hi
    simp [Producer.new, hi]
  · simp [Producer.done]

/-- Witness of C4: `payload_count = 10`, `heavy_every_n = 5` (scenario A). -/
theorem run_terminates_witness :
    ∃ p : Producer,
      (Producer.new 10 10 5).run 11 = some (Outcome.returns 10 p) ∧
      p._buffered_payload =
        [WORK.HEAVY, WORK.SMALL, WORK.SMALL, WORK.SMALL, WORK.SMALL,
         WORK.HEAVY, WORK.SMALL, WORK.SMALL, WORK.SMALL, WORK.SMALL] ∧
      p._current_payload_count = 10 ∧
      p.done = true := by
  obtain ⟨p, hrun, hbuf, -, -, hcount, -, hdone⟩ :=
    run_terminates 10 10 5 11 (by decide) (by decide) (by decide)
  exact ⟨p, hrun, hbuf.trans (by decide), hcount, hdone⟩

/-- Pushing a list of labels appends it to the back of the queue. -/
theorem push_all_eq (works : List WORK) :
    ∀ p : Producer,
      p.push_all works = { p with _buffered_payload := p._buffered_payload ++ works } := by
  induction works with
  | nil => intro p; simp [Producer.push_all]
  | cons w ws ih =>
    intro p
    have h := ih (p.push w)
    simp only [Producer.push_all, List.foldl_cons] at h ⊢
    rw [h]
    simp [Producer.push]

/-- Popping as many labels as a prefix of the queue holds returns that
prefix, in order, and leaves the rest. -/
theorem get_payloads_prefix (works : List WORK) :
    ∀ (p : Producer) (rest : List WORK),
      p._buffered_payload = works ++ rest →
      p.get_payloads works.length
        = Outcome.returns works { p with _buffered_payload := rest } := by
  induction works with
  | nil =>
    intro p rest h
    cases p
    simp_all [Producer.get_payloads]
  | cons w ws ih =>
    intro p rest h
    have hget : p.get_payload = Outcome.returns w { p with _buffered_payload := ws ++ rest } := by
      simp [Producer.get_payload, h]
    simp only [List.length_cons, Producer.get_payloads, hget]
    rw [ih _ rest rfl]

/-- C5. FIFO order of the producer's buffer: after any sequence of labels is
pushed onto an empty buffer, as many successive `get_payload` calls all
return, they return exactly those labels in push order, and they leave the
buffer empty, so that `has_payload` is false. -/
theorem get_payloads_fifo (p : Producer) (works : List WORK)
    (hempty : p._buffered_payload = []) :
    ∃ p1 : Producer,
      (p.push_all works).get_payloads works.length = Outcome.returns works p1 ∧
      p1._buffered_payload = [] ∧
      p1.has_payload = false ∧
      p1 = p := by
  refine ⟨{ p.push_all works with _buffered_payload := [] }, ?_, rfl, rfl, ?_⟩
  · exact get_payloads_prefix works (p.push_all works) [] (by simp [push_all_eq, hempty])
  · cases p
    simp_all [push_all_eq]

/-- Witness of C5: three labels, one outside the two enumerators. -/
theorem get_payloads_fifo_witness :
    ∃ p1 : Producer,
      ((Producer.new 3 10 5).push_all [WORK.HEAVY, 7, WORK.SMALL]).get_payloads
          [WORK.HEAVY, (7 : WORK), WORK.SMALL].length
        = Outcome.returns [WORK.HEAVY, 7, WORK.SMALL] p1 ∧
      p1._buffered_payload = [] ∧
      p1.has_payload = false ∧
      p1 = Producer.new 3 10 5 :=
  get_payloads_fifo (Producer.new 3 10 5) [WORK.HEAVY, 7, WORK.SMALL] rfl

/-- Member function `done` reads only the two counters. -/
theorem done_iff (p : Producer) :
    p.done = true ↔ p._current_payload_count = p._payload_count := by
  unfold Producer.done
  rw [beq_iff_eq]
  exact eq_comm

/-- When `done()` holds, `run` returns at the first loop test. -/
theorem run_of_done (p : Producer) (hdone : p.done = true) (f : Nat) :
    p.run (f + 1) = some (Outcome.returns 0 p) := by
  simp only [Producer.run, Producer.run_loop, hdone, if_true]

/-- One call that returns keeps `done()` true. -/
theorem call_keeps_done (p p1 : Producer) (c : ProducerCall)
    (hdone : p.done = true) (hcall : p.call c = some p1) : p1.done = true := by
  cases c with
  | run fuel =>
    cases fuel with
    | zero => simp [Producer.call, Producer.run, Producer.run_loop] at hcall
    | succ f =>
      simp only [Producer.call, run_of_done p hdone f, Option.some.injEq] at hcall
      rw [← hcall]; exact hdone
  | get_payload =>
    cases hb : p._buffered_payload with
    | nil => simp [Producer.call, Producer.get_payload, hb] at hcall
    | cons w rest =>
      simp [Producer.call, Producer.get_payload, hb] at hcall
      rw [← hcall]; simpa [Producer.done] using hdone
  | has_payload =>
    simp [Producer.call] at hcall
    rw [← hcall]; exact hdone

/-- C9. `Producer::done` is true if and only if `_current_payload_count`
equals `_payload_count`; and once it is true it stays true: `run` returns at
once without an iteration and leaves the producer as it is, `get_payload` on a
non-empty buffer returns and keeps it true, `has_payload` changes nothing, and
so after any sequence of calls that return `done()` is still true. -/
theorem done_monotonic (p : Producer) :
    (p.done = true ↔ p._current_payload_count = p._payload_count) ∧
    (p.done = true →
      (∀ fuel, 0 < fuel → p.run fuel = some (Outcome.returns 0 p)) ∧
      (p.has_payload = true →
        ∃ w p1, p.get_payload = Outcome.returns w p1 ∧ p1.done = true) ∧
      (∀ w p1, p.get_payload = Outcome.returns w p1 → p1.done = true) ∧
      (∀ cs p1, p.calls cs = some p1 → p1.done = true)) := by
  refine ⟨done_iff p, fun hdone => ⟨?_, ?_, ?_, ?_⟩⟩
  · intro fuel hfuel
    obtain ⟨f, rfl⟩ : ∃ f, fuel = f + 1 := ⟨fuel - 1, by omega⟩
    exact run_of_done p hdone f
  · intro hhas
    cases hb : p._buffered_payload with
    | nil => simp [Producer.has_payload, hb] at hhas
    | cons w rest =>
      exact ⟨w, { p with _buffered_payload := rest }, by simp [Producer.get_payload, hb],
        by simpa [Producer.done] using hdone⟩
  · intro w p1 hget
    exact call_keeps_done p p1 ProducerCall.get_payload hdone (by simp [Producer.call, hget])
  · intro cs
    induction cs generalizing p with
    | nil =>
      intro p1 h
      simp [Producer.calls] at h
      rw [← h]; exact hdone
    | cons c cs ih =>
      intro p1 h
      cases hc : p.call c with
      | none => simp [Producer.calls, hc] at h
      | some p2 =>
        simp only [Producer.calls, hc] at h
        exact ih p2 (call_keeps_done p p2 c hdone hc) p1 h

/-- Witness of C9: the producer `run` leaves for `payload_count = 2` is done,
and stays done through two `get_payload` calls, a `has_payload` and a `run`. -/
theorem done_monotonic_witness :
    ∃ p p1 : Producer,
      (Producer.new 2 10 5).run 3 = some (Outcome.returns 2 p) ∧
      p.done = true ∧
      p.calls [ProducerCall.get_payload, ProducerCall.has_payload,
        ProducerCall.get_payload, ProducerCall.run 1] = some p1 ∧
      p1.done = true := by
  refine ⟨{ Producer.new 2 10 5 with
      _buffered_payload := [WORK.HEAVY, WORK.SMALL], _current_payload_count := 2 },
    { Producer.new 2 10 5 with _current_payload_count := 2 }, by decide, by decide,
    by decide, ?_⟩
  exact ((done_monotonic { Producer.new 2 10 5 with
      _buffered_payload := [WORK.HEAVY, WORK.SMALL], _current_payload_count := 2 }).2
    (by decide)).2.2.2
      [ProducerCall.get_payload, ProducerCall.has_payload, ProducerCall.get_payload,
        ProducerCall.run 1]
      { Producer.new 2 10 5 with _current_payload_count := 2 } (by decide)

/-- Counterexample to C10: on the freshly constructed producer of `main`,
whose buffer is empty, `get_payload` does not report an `EmptyQueue` failure
that keeps the state; the call has undefined behaviour. -/
theorem get_payload_empty_not_checked :
    (Producer.new 100 10 5).has_payload = false ∧
    (Producer.new 100 10 5).get_payload = Outcome.undefined ∧
    ¬ (Producer.new 100 10 5).get_payload
        = Outcome.throws Fault.EmptyQueue (Producer.new 100 10 5) := by
  decide

/-- C10 (amended). `Producer::get_payload` makes no emptiness check and
reports no failure on any producer: when `has_payload()` is false the call has
undefined behaviour (it yields neither a label nor a state), and when
`has_payload()` is true it returns the oldest label and removes exactly that
label. -/
theorem get_payload_unchecked (p : Producer) :
    (∀ err p1, p.get_payload ≠ Outcome.throws err p1) ∧
    (p.has_payload = false → p.get_payload = Outcome.undefined) ∧
    (p.has_payload = true →
      ∃ w rest, p._buffered_payload = w :: rest ∧
        p.get_payload = Outcome.returns w { p with _buffered_payload := rest }) := by
  cases hb : p._buffered_payload with
  | nil => simp [Producer.get_payload, Producer.has_payload, hb]
  | cons w rest => simp [Producer.get_payload, Producer.has_payload, hb]

/-- Witness of C10 (amended): an empty and a two-label buffer. -/
theorem get_payload_unchecked_witness :
    (Producer.new 100 10 5).get_payload = Outcome.undefined ∧
    ∃ w rest, ((Producer.new 100 10 5).push_all [WORK.HEAVY, WORK.SMALL])._buffered_payload
        = w :: rest ∧
      ((Producer.new 100 10 5).push_all [WORK.HEAVY, WORK.SMALL]).get_payload
        = Outcome.returns w
            { (Producer.new 100 10 5).push_all [WORK.HEAVY, WORK.SMALL] with
              _buffered_payload := rest } :=
  ⟨(get_payload_unchecked (Producer.new 100 10 5)).2.1 (by decide),
   (get_payload_unchecked ((Producer.new 100 10 5).push_all [WORK.HEAVY, WORK.SMALL])).2.2
     (by decide)⟩

/-! ### Lag accounting -/

/-- Closed form of one step: the lag `do_work` leaves. -/
theorem do_work_lag (c : Consumer) (work : WORK) (e : ℚ) :
    (c.do_work work e).consumer._lag = min 0 (c._target_frequency_ms - e + c._lag) := by
  by_cases h : 0 < c._target_frequency_ms - e + c._lag
  · simp [Consumer.do_work, h, le_of_lt h]
  · simp [Consumer.do_work, h, le_of_not_lt h]

/-- Member `_target_frequency_ms` is the same after a call. -/
theorem do_work_target (c : Consumer) (work : WORK) (e : ℚ) :
    (c.do_work work e).consumer._target_frequency_ms = c._target_frequency_ms := by
  by_cases h : 0 < c._target_frequency_ms - e + c._lag
  · simp [Consumer.do_work, h]
  · simp [Consumer.do_work, h]

/-- Member `_target_frequency_ms` is the same after any sequence of calls. -/
theorem do_work_calls_target (calls : List (WORK × ℚ)) :
    ∀ c : Consumer, (c.do_work_calls calls)._target_frequency_ms = c._target_frequency_ms := by
  induction calls with
  | nil => intro c; rfl
  | cons call rest ih =>
    intro c
    simp only [Consumer.do_work_calls]
    rw [ih, do_work_target]

/-- A sequence of calls followed by one more call. -/
theorem do_work_calls_append (pre : List (WORK × ℚ)) (post : List (WORK × ℚ)) :
    ∀ c : Consumer,
      c.do_work_calls (pre ++ post) = (c.do_work_calls pre).do_work_calls post := by
  induction pre with
  | nil => intro c; rfl
  | cons call rest ih =>
    intro c
    simp only [List.cons_append, Consumer.do_work_calls]
    exact ih _

/-- A non-positive lag stays non-positive through any sequence of calls. -/
theorem do_work_calls_lag_nonpos (calls : List (WORK × ℚ)) :
    ∀ c : Consumer, c._lag ≤ 0 → (c.do_work_calls calls)._lag ≤ 0 := by
  induction calls with
  | nil => intro c h; exact h
  | cons call rest ih =>
    intro c _
    simp only [Consumer.do_work_calls]
    apply ih
    rw [do_work_lag]
    exact min_le_left _ _

/-- C6. Lag is never positive: the constructor sets the lag to `0`, and from
a consumer with lag `0`, whatever its target period and work times, the lag
after any finite sequence of `do_work` calls with arbitrary work kinds and
measured work times is at most `0`. -/
theorem lag_never_positive (small_work_time_ms heavy_work_time_ms target_frequency_hz : Nat)
    (target_period : ℚ) (calls : List (WORK × ℚ)) :
    (Consumer.new small_work_time_ms heavy_work_time_ms target_frequency_hz)._lag = 0 ∧
    ((Consumer.new small_work_time_ms heavy_work_time_ms target_frequency_hz).do_work_calls
      calls)._lag ≤ 0 ∧
    (({ _small_work_time_ms := small_work_time_ms
        _heavy_work_time_ms := heavy_work_time_ms
        _target_frequency_ms := target_period
        _lag := 0 } : Consumer).do_work_calls calls)._lag ≤ 0 :=
  ⟨rfl, do_work_calls_lag_nonpos calls _ (le_of_eq rfl),
    do_work_calls_lag_nonpos calls _ (le_refl 0)⟩

/-- One call whose measured work time is at least the target period, after
any earlier calls from a non-positive lag: the lag drops by the overrun. -/
theorem overload_step (c : Consumer) (pre : List (WORK × ℚ)) (work : WORK) (e : ℚ)
    (hlag : c._lag ≤ 0) (he : c._target_frequency_ms ≤ e) :
    (c.do_work_calls (pre ++ [(work, e)]))._lag
      = (c.do_work_calls pre)._lag - (e - c._target_frequency_ms) := by
  have hbefore : (c.do_work_calls pre)._lag ≤ 0 := do_work_calls_lag_nonpos pre c hlag
  rw [do_work_calls_append]
  simp only [Consumer.do_work_calls]
  rw [do_work_lag, do_work_calls_target pre c, min_eq_right (by linarith)]
  ring

/-- C7. Lag monotonicity under sustained overload: from a consumer whose lag
is not positive (as the constructor leaves it), along any sequence of
`do_work` calls each of whose measured work time is at least the target
period, the lag after the first `k + 1` calls is at most the lag after the
first `k` calls, and it is at most `0`. -/
theorem lag_monotone_under_overload (c : Consumer) (calls : List (WORK × ℚ)) (k : Nat)
    (hlag : c._lag ≤ 0)
    (hover : ∀ call ∈ calls, c._target_frequency_ms ≤ call.2)
    (hk : k < calls.length) :
    (c.do_work_calls (calls.take (k + 1)))._lag ≤ (c.do_work_calls (calls.take k))._lag ∧
    (c.do_work_calls (calls.take (k + 1)))._lag ≤ 0 := by
  have hmem : calls[k] ∈ calls := List.getElem_mem hk
  have he : c._target_frequency_ms ≤ calls[k].2 := hover _ hmem
  have hbefore : (c.do_work_calls (calls.take k))._lag ≤ 0 :=
    do_work_calls_lag_nonpos _ c hlag
  have hstep := overload_step c (calls.take k) calls[k].1 calls[k].2 hlag he
  have htake : calls.take (k + 1) = calls.take k ++ [(calls[k].1, calls[k].2)] := by
    rw [List.take_succ, List.getElem?_eq_getElem hk]
    rfl
  rw [htake, hstep]
  constructor <;> linarith

/-- Witness of C7: three heavy items (`e = 20`) with `T = 10`; the lag after
the third is at most the lag after the second. -/
theorem lag_monotone_under_overload_witness :
    ((Consumer.new 2 20 100).do_work_calls
        ([(WORK.HEAVY, (20 : ℚ)), (WORK.HEAVY, 20), (WORK.HEAVY, 20)].take (2 + 1)))._lag
      ≤ ((Consumer.new 2 20 100).do_work_calls
        ([(WORK.HEAVY, (20 : ℚ)), (WORK.HEAVY, 20), (WORK.HEAVY, 20)].take 2))._lag ∧
    ((Consumer.new 2 20 100).do_work_calls
        ([(WORK.HEAVY, (20 : ℚ)), (WORK.HEAVY, 20), (WORK.HEAVY, 20)].take (2 + 1)))._lag ≤ 0 :=
  lag_monotone_under_overload (Consumer.new 2 20 100)
    [(WORK.HEAVY, 20), (WORK.HEAVY, 20), (WORK.HEAVY, 20)] 2 (le_of_eq rfl)
    (by intro call h; simp at h; rw [h]; norm_num [Consumer.new])
    (by decide)

/-! ### Driver loop -/

/-- An interleaving made of two parts runs the second part from the state
the first part leaves. -/
theorem exec_append (ms1 ms2 : List Move) :
    ∀ s s1 : System, s.exec ms1 = Outcome.returns () s1 →
      s.exec (ms1 ++ ms2) = s1.exec ms2 := by
  induction ms1 with
  | nil =>
    intro s s1 h
    simp only [System.exec, Outcome.returns.injEq, true_and] at h
    rw [h]; rfl
  | cons m ms ih =>
    intro s s1 h
    cases hm : s.step m with
    | returns v s2 =>
      simp only [System.exec, hm] at h
      simp only [List.cons_append, System.exec, hm]
      exact ih s2 s1 h
    | throws err s2 => simp [System.exec, hm] at h
    | undefined => simp [System.exec, hm] at h

/-- One round from a state with both threads at their loop tests, an empty
queue and at least two ticks to go: the label of the current tick is pushed
and popped, and the counter advances by one. -/
theorem round_robin_round_spec (s : System) (e : ℚ)
    (hp : s.producer_pc = ProducerPc.at_while) (hd : s.driver_pc = DriverPc.at_while)
    (hbuf : s.producer._buffered_payload = [])
    (hlt : s.producer._current_payload_count + 1 < s.producer._payload_count)
    (hN : s.producer._payload_count < U32)
    (hn : 0 < s.producer._heavy_work_every_n_ticks) :
    ∃ s1 : System,
      s.exec (round_robin_round e) = Outcome.returns () s1 ∧
      s1.producer_pc = ProducerPc.at_while ∧ s1.driver_pc = DriverPc.at_while ∧
      s1.producer._buffered_payload = [] ∧
      s1.producer._current_payload_count = s.producer._current_payload_count + 1 ∧
      s1.producer._payload_count = s.producer._payload_count ∧
      s1.producer._heavy_work_every_n_ticks = s.producer._heavy_work_every_n_ticks ∧
      s1.popped = s.popped ++
        [tick_label s.producer._heavy_work_every_n_ticks s.producer._current_payload_count] ∧
      s1.consumer_finished_payloads = (s.consumer_finished_payloads + 1) % U32 := by
  obtain ⟨⟨pc, f, buf, hw, cnt⟩, cons, fin, ppc, dpc, popped⟩ := s
  simp only at hp hd hbuf hlt hN hn
  subst hp hd hbuf
  have hn0 : hw ≠ 0 := Nat.pos_iff_ne_zero.mp hn
  have hne : ¬ pc = cnt := by omega
  have hne1 : ¬ pc = cnt + 1 := by omega
  have hwrap : (cnt + 1) % U32 = cnt + 1 := Nat.mod_eq_of_lt (by omega)
  by_cases hm : cnt % hw = 0
  · simp [round_robin_round, System.exec, System.step, System.producer_step,
      System.driver_step, Producer.done, Producer.classify_push, Producer.push,
      Producer.increment, Producer.has_payload, Producer.get_payload, tick_label,
      hn0, hne, hne1, hm, hwrap]
  · simp [round_robin_round, System.exec, System.step, System.producer_step,
      System.driver_step, Producer.done, Producer.classify_push, Producer.push,
      Producer.increment, Producer.has_payload, Producer.get_payload, tick_label,
      hn0, hne, hne1, hm, hwrap]

/-- Any number `k` of rounds, from a state with both threads at their loop
tests, an empty queue and more than `k` ticks to go. -/
theorem round_robin_spec (k : Nat) (e : ℚ) :
    ∀ s : System,
      s.producer_pc = ProducerPc.at_while → s.driver_pc = DriverPc.at_while →
      s.producer._buffered_payload = [] →
      s.producer._current_payload_count + k < s.producer._payload_count →
      s.producer._payload_count < U32 →
      0 < s.producer._heavy_work_every_n_ticks →
      ∃ s1 : System,
        s.exec (round_robin k e) = Outcome.returns () s1 ∧
        s1.producer_pc = ProducerPc.at_while ∧ s1.driver_pc = DriverPc.at_while ∧
        s1.producer._buffered_payload = [] ∧
        s1.producer._current_payload_count = s.producer._current_payload_count + k ∧
        s1.producer._payload_count = s.producer._payload_count ∧
        s1.producer._heavy_work_every_n_ticks = s.producer._heavy_work_every_n_ticks := by
  induction k with
  | zero =>
    intro s hp hd hbuf _ _ _
    exact ⟨s, rfl, hp, hd, hbuf, rfl, rfl, rfl⟩
  | succ k ih =>
    intro s hp hd hbuf hlt hN hn
    obtain ⟨s1, hs1, hp1, hd1, hbuf1, hc1, hN1, hn1, -, -⟩ :=
      round_robin_round_spec s e hp hd hbuf (by omega) hN hn
    obtain ⟨s2, hs2, hp2, hd2, hbuf2, hc2, hN2, hn2⟩ :=
      ih s1 hp1 hd1 hbuf1 (by omega) (by omega) (by omega)
    refine ⟨s2, ?_, hp2, hd2, hbuf2, by omega, by omega, by omega⟩
    simp only [round_robin]
    rw [exec_append _ _ s s1 hs1]
    exact hs2

/-- The last producer iteration followed by the driver's loop test: the test
finds `done()` true and the loop exits with the last label in the queue. -/
theorem last_round_spec (s : System) (e : ℚ)
    (hp : s.producer_pc = ProducerPc.at_while) (hd : s.driver_pc = DriverPc.at_while)
    (hbuf : s.producer._buffered_payload = [])
    (hlast : s.producer._current_payload_count + 1 = s.producer._payload_count)
    (hN : s.producer._payload_count < U32)
    (hn : 0 < s.producer._heavy_work_every_n_ticks) :
    ∃ s1 : System,
      s.exec [Move.producer, Move.producer, Move.producer, Move.driver e]
        = Outcome.returns () s1 ∧
      s1.driver_pc = DriverPc.exited ∧
      s1.producer._buffered_payload =
        [tick_label s.producer._heavy_work_every_n_ticks s.producer._current_payload_count] ∧
      s1.popped = s.popped := by
  obtain ⟨⟨pc, f, buf, hw, cnt⟩, cons, fin, ppc, dpc, popped⟩ := s
  simp only at hp hd hbuf hlast hN hn
  subst hp hd hbuf hlast
  have hn0 : hw ≠ 0 := Nat.pos_iff_ne_zero.mp hn
  have hwrap : (cnt + 1) % U32 = cnt + 1 := Nat.mod_eq_of_lt hN
  by_cases hm : cnt % hw = 0
  · simp [System.exec, System.step, System.producer_step, System.driver_step, Producer.done,
      Producer.classify_push, Producer.push, Producer.increment, tick_label, hn0, hm, hwrap]
  · simp [System.exec, System.step, System.producer_step, System.driver_step, Producer.done,
      Producer.classify_push, Producer.push, Producer.increment, tick_label, hn0, hm, hwrap]

/-- The invariant holds when the driver loop is entered. -/
theorem init_inv (N f n small heavy hz : Nat) :
    (System.init N f n small heavy hz).Inv N n := by
  simp [System.Inv, System.init, System.pushed, Producer.new]

/-- An outcome that returns into a state satisfying `P`, spelled out. -/
theorem returns_into_iff {σ : Type} (o : Outcome σ Unit) (P : σ → Prop) :
    o.returns_into P ↔ ∃ s1, o = Outcome.returns () s1 ∧ P s1 := by
  cases o with
  | returns v s1 => simp [Outcome.returns_into]
  | throws err s1 => simp [Outcome.returns_into]
  | undefined => simp [Outcome.returns_into]

/-- A move of the producer thread returns and keeps the invariant. -/
theorem producer_step_inv (N n : Nat) (hN : N < U32) (hn : 0 < n) (s : System)
    (h : s.Inv N n) : s.producer_step.returns_into (System.Inv N n) := by
  obtain ⟨⟨pc, f, buf, hw, cnt⟩, cons, fin, ppc, dpc, popped⟩ := s
  obtain ⟨h1, h2, h3, h4, h5, h6, h7, h8, h9⟩ := h
  simp only [System.pushed] at h1 h2 h3 h4 h5 h6 h7 h8 h9
  subst h1 h2
  have hn0 : hw ≠ 0 := Nat.pos_iff_ne_zero.mp hn
  cases ppc with
  | at_while =>
    by_cases hd : pc = cnt
    · simp_all [Outcome.returns_into, System.producer_step, System.Inv, System.pushed,
        Producer.done]
    · simp_all [Outcome.returns_into, System.producer_step, System.Inv, System.pushed,
        Producer.done]
      omega
  | at_push =>
    have hlt : cnt < pc := h4 (Or.inl rfl)
    by_cases hm : cnt % hw = 0
    · simp_all [Outcome.returns_into, System.producer_step, Producer.classify_push,
        System.Inv, System.pushed, Producer.push, List.range_succ, tick_label,
        ← List.append_assoc]
    · simp_all [Outcome.returns_into, System.producer_step, Producer.classify_push,
        System.Inv, System.pushed, Producer.push, List.range_succ, tick_label,
        ← List.append_assoc]
  | at_increment =>
    have hlt : cnt < pc := h4 (Or.inr rfl)
    have hwrap : (cnt + 1) % U32 = cnt + 1 := Nat.mod_eq_of_lt (by omega)
    simp_all [Outcome.returns_into, System.producer_step, System.Inv, System.pushed,
      Producer.increment]
    refine ⟨by omega, fun hd => ?_⟩
    have := h8 hd
    omega
  | returned =>
    simp_all [Outcome.returns_into, System.producer_step, System.Inv, System.pushed]

/-- A move of the driver thread returns and keeps the invariant; in
particular its `get_payload` finds a non-empty buffer. -/
theorem driver_step_inv (N n : Nat) (hN : N < U32) (s : System) (e : ℚ)
    (h : s.Inv N n) : (s.driver_step e).returns_into (System.Inv N n) := by
  obtain ⟨⟨pc, f, buf, hw, cnt⟩, cons, fin, ppc, dpc, popped⟩ := s
  obtain ⟨h1, h2, h3, h4, h5, h6, h7, h8, h9⟩ := h
  simp only at h1 h2 h3 h4 h5 h7 h8 h9
  subst h1 h2
  cases dpc with
  | at_while =>
    by_cases hd : pc = cnt
    · simp_all [Outcome.returns_into, System.driver_step, System.Inv, System.pushed,
        Producer.done]
    · simp_all [Outcome.returns_into, System.driver_step, System.Inv, System.pushed,
        Producer.done]
  | at_if =>
    cases buf with
    | nil =>
      simp_all [Outcome.returns_into, System.driver_step, System.Inv, System.pushed,
        Producer.has_payload]
    | cons w rest =>
      simp_all [Outcome.returns_into, System.driver_step, System.Inv, System.pushed,
        Producer.has_payload]
  | at_get =>
    cases buf with
    | nil => exact absurd rfl (h7 rfl)
    | cons w rest =>
      have hlen := congrArg List.length h6
      have hpushed :
          (System.pushed ⟨⟨pc, f, w :: rest, hw, cnt⟩, cons, fin, ppc, DriverPc.at_get, popped⟩)
            ≤ pc := by
        simp only [System.pushed]
        split
        · rename_i hp
          have := h4 (Or.inr hp)
          omega
        · exact h3
      simp only [List.length_append, List.length_cons, List.length_map, List.length_range]
        at hlen
      have hwrap : (popped.length + 1) % U32 = popped.length + 1 :=
        Nat.mod_eq_of_lt (by omega)
      simp_all [Outcome.returns_into, System.driver_step, System.Inv, System.pushed,
        Producer.get_payload]
  | exited =>
    simp_all [Outcome.returns_into, System.driver_step, System.Inv, System.pushed]

/-- Any move returns and keeps the invariant. -/
theorem step_inv (N n : Nat) (hN : N < U32) (hn : 0 < n) (s : System) (m : Move)
    (h : s.Inv N n) : (s.step m).returns_into (System.Inv N n) := by
  cases m with
  | producer => exact producer_step_inv N n hN hn s h
  | driver e => exact driver_step_inv N n hN s e h

/-- Any finite interleaving returns and keeps the invariant. -/
theorem exec_inv (N n : Nat) (hN : N < U32) (hn : 0 < n) (ms : List Move) :
    ∀ s : System, s.Inv N n → (s.exec ms).returns_into (System.Inv N n) := by
  induction ms with
  | nil => intro s h; exact h
  | cons m ms ih =>
    intro s h
    obtain ⟨s1, hs1, hinv⟩ := (returns_into_iff _ _).mp (step_inv N n hN hn s m h)
    simp only [System.exec, hs1]
    exact ih s1 hinv

set_option maxRecDepth 1000000 in
/-- Counterexample to C2, with the constants of `main`, in two runs. In the
first the producer thread performs its `100` iterations and returns before the
driver thread makes its first loop test: that test finds `done()` true and the
loop exits with nothing popped and all `100` labels still queued. In the
second the threads alternate, one producer iteration then one driver
iteration, `99` times, and the producer then performs its last iteration:
the driver's next loop test finds `done()` true and the loop exits with `99`
labels popped and the label of tick `99` still queued. -/
theorem driver_exit_leaves_queue :
    (∃ s : System,
      main_system.exec (List.replicate 301 Move.producer ++ [Move.driver 0])
        = Outcome.returns () s ∧
      s.driver_pc = DriverPc.exited ∧
      s.producer.done = true ∧
      s.popped = [] ∧
      s.consumer_finished_payloads = 0 ∧
      s.producer._buffered_payload.length = 100) ∧
    (∃ s : System,
      main_system.exec (round_robin 99 10 ++
          [Move.producer, Move.producer, Move.producer, Move.driver 10])
        = Outcome.returns () s ∧
      s.driver_pc = DriverPc.exited ∧
      s.producer.done = true ∧
      s.popped.length = 99 ∧
      s.consumer_finished_payloads = 99 ∧
      s.producer._buffered_payload = [WORK.SMALL]) := by
  refine ⟨⟨_, rfl, rfl, rfl, rfl, rfl, rfl⟩, ?_⟩
  obtain ⟨s1, hs1, hp1, hd1, hbuf1, hc1, hN1, hn1⟩ :=
    round_robin_spec 99 10 main_system rfl rfl rfl (by decide) (by decide) (by decide)
  have hc : s1.producer._current_payload_count = 99 := hc1
  have hN : s1.producer._payload_count = 100 := hN1
  have hn : s1.producer._heavy_work_every_n_ticks = 5 := hn1
  obtain ⟨s2, hs2, hexit, hbuf2, -⟩ :=
    last_round_spec s1 10 hp1 hd1 hbuf1 (by omega) (by rw [hN]; decide) (by omega)
  have hexec : main_system.exec (round_robin 99 10 ++
      [Move.producer, Move.producer, Move.producer, Move.driver 10])
      = Outcome.returns () s2 := by
    rw [exec_append _ _ main_system s1 hs1]
    exact hs2
  have hinv : (Outcome.returns () s2 : Outcome System Unit).returns_into (System.Inv 100 5) := by
    rw [← hexec]
    exact exec_inv 100 5 (by decide) (by decide) _ _ (init_inv 100 10 5 2 20 100)
  obtain ⟨h1, -, -, h4, -, h6, -, h8, h9⟩ := hinv
  have hcount := h8 hexit
  have hpushed : s2.pushed = 100 := by
    simp only [System.pushed]
    split
    · rename_i hp
      have := h4 (Or.inr hp)
      omega
    · exact hcount
  rw [hbuf2, hc, hn] at h6
  have hlen := congrArg List.length h6
  rw [hpushed] at hlen
  simp only [List.length_append, List.length_singleton, List.length_map,
    List.length_range] at hlen
  refine ⟨s2, hexec, hexit, by rw [done_iff, hcount, h1], by omega, by omega, ?_⟩
  rw [hbuf2, hc, hn]
  decide

/-- C2 (amended). Driver conservation: for every finite interleaving of
producer-thread and driver-thread steps from the state in which `main`
enters its loop (32-bit payload count, heavy-work period `> 0`), every step
returns, and in the state reached the labels popped so far followed by the
labels still queued are exactly the classifications of ticks `0, 1, 2, ...`
in order (so every popped label was pushed, is popped once, and in FIFO
order); `consumer_finished_payloads` is the number popped; popped plus queued
never exceeds the payload count; and when the driver loop has exited,
`done()` holds and popped plus queued equals the payload count. -/
theorem driver_pops_fifo_prefix (N f n small heavy hz : Nat) (hN : N < U32) (hn : 0 < n)
    (ms : List Move) :
    ∃ s : System,
      (System.init N f n small heavy hz).exec ms = Outcome.returns () s ∧
      s.popped ++ s.producer._buffered_payload
        = (List.range (s.popped.length + s.producer._buffered_payload.length)).map
            (tick_label n) ∧
      s.consumer_finished_payloads = s.popped.length ∧
      s.popped.length + s.producer._buffered_payload.length ≤ N ∧
      (s.driver_pc = DriverPc.exited →
        s.producer.done = true ∧
        s.popped.length + s.producer._buffered_payload.length = N) := by
  obtain ⟨s, hs, h1, h2, h3, h4, h5, h6, h7, h8, h9⟩ :=
    (returns_into_iff _ _).mp (exec_inv N n hN hn ms _ (init_inv N f n small heavy hz))
  have hlen : s.popped.length + s.producer._buffered_payload.length = s.pushed := by
    simpa using congrArg List.length h6
  have hpushed : s.pushed ≤ N := by
    simp only [System.pushed]
    split
    · rename_i hp
      have := h4 (Or.inr hp)
      omega
    · exact h3
  refine ⟨s, hs, by rw [hlen]; exact h6, h9, by omega, fun hexit => ?_⟩
  have hcount := h8 hexit
  refine ⟨by rw [done_iff, hcount, h1], ?_⟩
  rw [hlen]
  simp only [System.pushed]
  split
  · rename_i hp
    have := h4 (Or.inr hp)
    omega
  · exact hcount

/-- Witness of C2 (amended), with the constants of `main`: one producer
iteration followed by one driver iteration. -/
theorem driver_pops_fifo_prefix_witness :
    ∃ s : System,
      (System.init 100 10 5 2 20 100).exec
          [Move.producer, Move.producer, Move.producer,
           Move.driver 2, Move.driver 2, Move.driver 2]
        = Outcome.returns () s ∧
      s.popped ++ s.producer._buffered_payload
        = (List.range (s.popped.length + s.producer._buffered_payload.length)).map
            (tick_label 5) ∧
      s.consumer_finished_payloads = s.popped.length ∧
      s.popped.length + s.producer._buffered_payload.length ≤ 100 ∧
      (s.driver_pc = DriverPc.exited →
        s.producer.done = true ∧
        s.popped.length + s.producer._buffered_payload.length = 100) :=
  driver_pops_fifo_prefix 100 10 5 2 20 100 (by decide) (by decide)
    [Move.producer, Move.producer, Move.producer, Move.driver 2, Move.driver 2, Move.driver 2]

/-! ### Construction -/

/-- Counterexample to C11: constructing a producer with the payload count
and tick period of `main` and heavy-work period `0` returns a producer that
stores the `0`, no failure is reported, and the first iteration of `run`
takes the remainder by zero, which is undefined behaviour. -/
theorem producer_zero_period_accepted :
    Producer.construct 100 10 0 = Outcome.returns () (Producer.new 100 10 0) ∧
    (Producer.new 100 10 0)._heavy_work_every_n_ticks = 0 ∧
    (Producer.new 100 10 0).done = false ∧
    (Producer.new 100 10 0).run_body = Outcome.undefined ∧
    (Producer.new 100 10 0).run 1 = some Outcome.undefined ∧
    (∀ p, Producer.construct 100 10 0 ≠ Outcome.throws Fault.ConfigurationError p) := by
  refine ⟨rfl, rfl, rfl, rfl, rfl, ?_⟩
  intro p h
  simp [Producer.construct] at h

/-- C11 (amended). The constructor of `Producer` makes no check: for every
argument triple it returns, and the producer stores the heavy-work period as
given, `0` included. With period `0`, `run` takes the remainder by zero in
its first iteration (undefined behaviour) whenever the payload count is not
`0`, and returns without an iteration when it is `0`; with a period `> 0`
every iteration returns. -/
theorem producer_construct_unchecked (payload_count producer_frequency_ms heavy_every_n : Nat) :
    Producer.construct payload_count producer_frequency_ms heavy_every_n
      = Outcome.returns () (Producer.new payload_count producer_frequency_ms heavy_every_n) ∧
    (Producer.new payload_count producer_frequency_ms heavy_every_n)._heavy_work_every_n_ticks
      = heavy_every_n ∧
    (heavy_every_n = 0 → payload_count ≠ 0 → ∀ fuel,
      (Producer.new payload_count producer_frequency_ms heavy_every_n).run (fuel + 1)
        = some Outcome.undefined) ∧
    (heavy_every_n = 0 → payload_count = 0 → ∀ fuel,
      (Producer.new payload_count producer_frequency_ms heavy_every_n).run (fuel + 1)
        = some (Outcome.returns 0
            (Producer.new payload_count producer_frequency_ms heavy_every_n))) ∧
    (0 < heavy_every_n → ∀ p : Producer, p._heavy_work_every_n_ticks = heavy_every_n →
      ∃ p1, p.run_body = Outcome.returns () p1) := by
  refine ⟨rfl, rfl, ?_, ?_, ?_⟩
  · intro hn hN fuel
    subst hn
    have hdone : (Producer.new payload_count producer_frequency_ms 0).done = false := by
      simp [Producer.done, Producer.new, hN]
    have hbody : (Producer.new payload_count producer_frequency_ms 0).run_body
        = Outcome.undefined := by
      simp [Producer.run_body, Producer.classify_push, Producer.new]
    simp only [Producer.run, Producer.run_loop, hdone, hbody, Bool.false_eq_true, if_false]
  · intro _ hN fuel
    exact run_of_done _ (by simp [Producer.done, Producer.new, hN]) fuel
  · intro hn p hp
    exact ⟨_, run_body_eq p (by rw [hp]; exact hn)⟩

/-- Witness of C11 (amended): period `0` with payload count `100` and with
payload count `0`, and period `5`. -/
theorem producer_construct_unchecked_witness :
    (Producer.new 100 10 0).run (0 + 1) = some Outcome.undefined ∧
    (Producer.new 0 10 0).run (0 + 1) = some (Outcome.returns 0 (Producer.new 0 10 0)) ∧
    ∃ p1, (Producer.new 100 10 5).run_body = Outcome.returns () p1 :=
  ⟨(producer_construct_unchecked 100 10 0).2.2.1 rfl (by decide) 0,
   (producer_construct_unchecked 0 10 0).2.2.2.1 rfl rfl 0,
   (producer_construct_unchecked 100 10 5).2.2.2.2 (by decide) (Producer.new 100 10 5) rfl⟩

/-- C13. The driver never pops from an empty queue: after every finite
interleaving of producer-thread and driver-thread steps from the state in
which `main` enters its loop (32-bit payload count, heavy-work period `> 0`),
every step has returned, and if the driver thread stands before its
`get_payload` call then `has_payload()` is true, the call returns a label and
the driver's step returns. -/
theorem driver_get_payload_nonempty (N f n small heavy hz : Nat) (hN : N < U32) (hn : 0 < n)
    (ms : List Move) :
    ∃ s : System,
      (System.init N f n small heavy hz).exec ms = Outcome.returns () s ∧
      (s.driver_pc = DriverPc.at_get →
        s.producer.has_payload = true ∧
        (∃ w p1, s.producer.get_payload = Outcome.returns w p1) ∧
        ∀ e, ∃ s1, s.driver_step e = Outcome.returns () s1) := by
  obtain ⟨s, hs, hinv⟩ :=
    (returns_into_iff _ _).mp (exec_inv N n hN hn ms _ (init_inv N f n small heavy hz))
  refine ⟨s, hs, fun hget => ?_⟩
  have hne : s.producer._buffered_payload ≠ [] := hinv.2.2.2.2.2.2.1 hget
  refine ⟨?_, ?_, fun e => ?_⟩
  · cases hb : s.producer._buffered_payload with
    | nil => exact absurd hb hne
    | cons w rest => simp [Producer.has_payload, hb]
  · cases hb : s.producer._buffered_payload with
    | nil => exact absurd hb hne
    | cons w rest =>
      exact ⟨w, { s.producer with _buffered_payload := rest },
        by simp only [Producer.get_payload, hb]⟩
  · obtain ⟨s1, hs1, -⟩ := (returns_into_iff _ _).mp (driver_step_inv N n hN s e hinv)
    exact ⟨s1, hs1⟩

/-- Witness of C13, with the constants of `main`: one producer iteration,
then the driver's loop test and `if`, which leave it before `get_payload`. -/
theorem driver_get_payload_nonempty_witness :
    ∃ s : System,
      (System.init 100 10 5 2 20 100).exec
          [Move.producer, Move.producer, Move.producer, Move.driver 2, Move.driver 2]
        = Outcome.returns () s ∧
      s.driver_pc = DriverPc.at_get ∧
      s.producer.has_payload = true ∧
      (∃ w p1, s.producer.get_payload = Outcome.returns w p1) ∧
      ∀ e, ∃ s1, s.driver_step e = Outcome.returns () s1 := by
  obtain ⟨s, hs, h⟩ := driver_get_payload_nonempty 100 10 5 2 20 100 (by decide) (by decide)
    [Move.producer, Move.producer, Move.producer, Move.driver 2, Move.driver 2]
  have hpc : ((System.init 100 10 5 2 20 100).exec
      [Move.producer, Move.producer, Move.producer, Move.driver 2, Move.driver 2]).returns_into
      (fun s => s.driver_pc = DriverPc.at_get) := by
    simp [System.exec, System.step, System.producer_step, System.driver_step, System.init,
      Producer.new, Producer.done, Producer.classify_push, Producer.push, Producer.increment,
      Producer.has_payload, Outcome.returns_into, U32]
  rw [hs] at hpc
  exact ⟨s, hs, hpc, h hpc⟩

/-- C14. Unclassified work kind is non-fatal: for a work value that is neither
`SMALL` nor `HEAVY`, `do_work` (a total function: the call returns) performs no
simulated work sleep, and its pacing is computed as for a classified item from
the same measured work time: gained time `(T - e) + lag`, pacing sleep of
exactly that when it is positive with lag reset to `0`, no pacing sleep and
lag set to it otherwise; the consumer it leaves and its pacing sleep are those
of a `SMALL` and of a `HEAVY` call, which do perform their work sleep. -/
theorem do_work_unclassified (c : Consumer) (work : WORK) (e : ℚ)
    (hsmall : work ≠ WORK.SMALL) (hheavy : work ≠ WORK.HEAVY) :
    (c.do_work work e).work_sleep = none ∧
    (c.do_work WORK.SMALL e).work_sleep = some c._small_work_time_ms ∧
    (c.do_work WORK.HEAVY e).work_sleep = some c._heavy_work_time_ms ∧
    (c.do_work work e).consumer = (c.do_work WORK.SMALL e).consumer ∧
    (c.do_work work e).consumer = (c.do_work WORK.HEAVY e).consumer ∧
    (c.do_work work e).pacing_sleep = (c.do_work WORK.SMALL e).pacing_sleep ∧
    (c.do_work work e).pacing_sleep = (c.do_work WORK.HEAVY e).pacing_sleep ∧
    (0 < (c._target_frequency_ms - e) + c._lag →
      (c.do_work work e).consumer._lag = 0 ∧
      (c.do_work work e).pacing_sleep = some ((c._target_frequency_ms - e) + c._lag)) ∧
    (¬ 0 < (c._target_frequency_ms - e) + c._lag →
      (c.do_work work e).consumer._lag = (c._target_frequency_ms - e) + c._lag ∧
      (c.do_work work e).pacing_sleep = none) := by
  have hne : WORK.HEAVY ≠ WORK.SMALL := by decide
  by_cases h : 0 < (c._target_frequency_ms - e) + c._lag
  · simp [Consumer.do_work, Consumer.work_switch, h, hsmall, hheavy, hne]
  · simp [Consumer.do_work, Consumer.work_switch, h, hsmall, hheavy, hne]

/-- Witness of C14: the work value `7` on the consumer of `main` with
measured work time `0` sleeps the whole target period and not for work. -/
theorem do_work_unclassified_witness :
    ((Consumer.new 2 20 100).do_work 7 0).work_sleep = none ∧
    ((Consumer.new 2 20 100).do_work 7 0).consumer._lag = 0 ∧
    ((Consumer.new 2 20 100).do_work 7 0).pacing_sleep = some 10 := by
  have h := do_work_unclassified (Consumer.new 2 20 100) 7 0 (by decide) (by decide)
  have hpos := h.2.2.2.2.2.2.2.1 (by norm_num [Consumer.new])
  refine ⟨h.1, hpos.1, ?_⟩
  rw [hpos.2]
  norm_num [Consumer.new]

/-! ### Minimum of a list and `0` -/

/-- What the `foldr` of `min` from `0` is: at most `0`, at most every member,
and equal to `0` or to a member. -/
theorem foldr_min_zero_spec (l : List ℚ) :
    l.foldr min 0 ≤ 0 ∧ (∀ x ∈ l, l.foldr min 0 ≤ x) ∧
    (l.foldr min 0 = 0 ∨ l.foldr min 0 ∈ l) := by
  induction l with
  | nil => simp
  | cons a l ih =>
    obtain ⟨h0, hle, hmem⟩ := ih
    simp only [List.foldr_cons, List.mem_cons, forall_eq_or_imp]
    refine ⟨le_trans (min_le_right _ _) h0, ⟨min_le_left _ _, fun x hx =>
      le_trans (min_le_right _ _) (hle x hx)⟩, ?_⟩
    rcases le_total a (l.foldr min 0) with h | h
    · rw [min_eq_left h]; exact Or.inr (Or.inl rfl)
    · rw [min_eq_right h]
      rcases hmem with h1 | h1
      · exact Or.inl h1
      · exact Or.inr (Or.inr h1)

/-! ### Produced stream -/

/-- Each operation returns and keeps the stream invariant. -/
theorem stream_step_inv (N n : Nat) (hN : N < U32) (hn : 0 < n) (s : Stream) (op : StreamOp)
    (h : s.Inv N n) : (s.step op).returns_into (Stream.Inv N n) := by
  obtain ⟨⟨pc, f, buf, hw, cnt⟩, returned⟩ := s
  obtain ⟨h1, h2, h3, h4⟩ := h
  simp only at h1 h2 h3 h4
  subst h1 h2
  cases op with
  | tick =>
    by_cases hd : pc = cnt
    · simp_all [Outcome.returns_into, Stream.step, Stream.Inv, Producer.done]
    · have hlt : cnt < pc := by omega
      have hwrap : (cnt + 1) % U32 = cnt + 1 := Nat.mod_eq_of_lt (by omega)
      have hbody := run_body_eq ⟨pc, f, buf, hw, cnt⟩ hn
      simp only [hwrap] at hbody
      simp only [Stream.step, Producer.done, beq_iff_eq, hd, if_false, hbody,
        Outcome.returns_into, Stream.Inv]
      refine ⟨trivial, trivial, hlt, ?_⟩
      rw [List.range_succ, List.map_append, ← List.append_assoc, h4]
      rfl
  | get_payload =>
    cases buf with
    | nil => simp_all [Outcome.returns_into, Stream.step, Stream.Inv, Producer.has_payload]
    | cons w rest =>
      simp_all [Outcome.returns_into, Stream.step, Stream.Inv, Producer.has_payload,
        Producer.get_payload]

/-- Every finite sequence of operations returns and keeps the stream
invariant. -/
theorem stream_exec_inv (N n : Nat) (hN : N < U32) (hn : 0 < n) (ops : List StreamOp) :
    ∀ s : Stream, s.Inv N n → (s.exec ops).returns_into (Stream.Inv N n) := by
  induction ops with
  | nil => intro s h; exact h
  | cons op ops ih =>
    intro s h
    obtain ⟨s1, hs1, hinv⟩ := (returns_into_iff _ _).mp (stream_step_inv N n hN hn s op h)
    simp only [Stream.exec, hs1]
    exact ih s1 hinv

/-- C17. Produced-stream invariant: from a fresh producer with a 32-bit
payload count and heavy-work period `> 0`, after any finite interleaving of
producer ticks and `get_payload` calls on a non-empty buffer, every operation
has returned, the labels returned so far followed by the buffer contents are
the classifications of ticks `0 .. _current_payload_count - 1` in order, and
the number returned plus the buffer size equals `_current_payload_count`,
which is at most the payload count. -/
theorem produced_stream_invariant (N f n : Nat) (hN : N < U32) (hn : 0 < n)
    (ops : List StreamOp) :
    ∃ s : Stream,
      (Stream.fresh N f n).exec ops = Outcome.returns () s ∧
      s.returned ++ s.producer._buffered_payload
        = (List.range s.producer._current_payload_count).map (tick_label n) ∧
      s.returned.length + s.producer._buffered_payload.length
        = s.producer._current_payload_count ∧
      s.producer._current_payload_count ≤ N ∧
      s.producer._payload_count = N := by
  have hfresh : (Stream.fresh N f n).Inv N n := by
    simp [Stream.Inv, Stream.fresh, Producer.new]
  obtain ⟨s, hs, h1, -, h3, h4⟩ :=
    (returns_into_iff _ _).mp (stream_exec_inv N n hN hn ops _ hfresh)
  exact ⟨s, hs, h4, by simpa using congrArg List.length h4, h3, h1⟩

/-- Witness of C17: payload count `3`, period `2`; two ticks, a read, a tick,
a read, and a tick that no longer happens. Two labels have been returned, one
is queued, and the counter is `3`. -/
theorem produced_stream_invariant_witness :
    ∃ s : Stream,
      (Stream.fresh 3 10 2).exec
          [StreamOp.tick, StreamOp.tick, StreamOp.get_payload, StreamOp.tick,
           StreamOp.get_payload, StreamOp.tick]
        = Outcome.returns () s ∧
      s.returned = [WORK.HEAVY, WORK.SMALL] ∧
      s.producer._buffered_payload = [WORK.HEAVY] ∧
      s.returned ++ s.producer._buffered_payload
        = (List.range s.producer._current_payload_count).map (tick_label 2) ∧
      s.returned.length + s.producer._buffered_payload.length
        = s.producer._current_payload_count ∧
      s.producer._current_payload_count = 3 := by
  obtain ⟨s, hs, h1, h2, -, -⟩ := produced_stream_invariant 3 10 2 (by decide) (by decide)
    [StreamOp.tick, StreamOp.tick, StreamOp.get_payload, StreamOp.tick,
     StreamOp.get_payload, StreamOp.tick]
  have hval : (Stream.fresh 3 10 2).exec
      [StreamOp.tick, StreamOp.tick, StreamOp.get_payload, StreamOp.tick,
       StreamOp.get_payload, StreamOp.tick]
      = Outcome.returns ()
          { producer := { Producer.new 3 10 2 with
              _buffered_payload := [WORK.HEAVY], _current_payload_count := 3 }
            returned := [WORK.HEAVY, WORK.SMALL] } := by
    decide
  rw [hval] at hs
  simp only [Outcome.returns.injEq, true_and] at hs
  subst hs
  exact ⟨_, hval, rfl, rfl, h1, h2, rfl⟩

/-! ### Rounding to `double` -/

theorem round_half_even_floor_le (q : ℚ) : ⌊q⌋ ≤ round_half_even q := by
  unfold round_half_even
  split_ifs <;> omega

theorem round_half_even_le_floor_succ (q : ℚ) : round_half_even q ≤ ⌊q⌋ + 1 := by
  unfold round_half_even
  split_ifs <;> omega

theorem round_half_even_intCast (n : ℤ) : round_half_even (n : ℚ) = n := by
  simp [round_half_even]

theorem round_half_even_mono {p q : ℚ} (h : p ≤ q) : round_half_even p ≤ round_half_even q := by
  have hf : ⌊p⌋ ≤ ⌊q⌋ := Int.floor_mono h
  rcases lt_or_eq_of_le hf with hlt | heq
  · calc round_half_even p ≤ ⌊p⌋ + 1 := round_half_even_le_floor_succ p
      _ ≤ ⌊q⌋ := hlt
      _ ≤ round_half_even q := round_half_even_floor_le q
  · have hd : p - ⌊p⌋ ≤ q - ⌊q⌋ := by rw [heq]; linarith
    unfold round_half_even
    rw [heq]
    split_ifs <;> first | omega | (exfalso; linarith)

theorem round_half_even_error (q : ℚ) : |(round_half_even q : ℚ) - q| ≤ 1 / 2 := by
  have h1 := Int.floor_le q
  have h2 := Int.lt_floor_add_one q
  unfold round_half_even
  rw [abs_le]
  split_ifs <;> push_cast <;> constructor <;> linarith

theorem double_ulp_pos (a : ℚ) : 0 < double_ulp a := by
  unfold double_ulp
  positivity

theorem double_ulp_mul_two_pow_52 (a : ℚ) :
    (2 : ℚ) ^ (52 : ℕ) * double_ulp a = 2 ^ double_exponent a := by
  unfold double_ulp
  rw [← zpow_natCast, ← zpow_add₀ (by norm_num : (2 : ℚ) ≠ 0)]
  congr 1
  push_cast
  ring

theorem double_ulp_mul_two_pow_53 (a : ℚ) :
    (2 : ℚ) ^ (53 : ℕ) * double_ulp a = 2 ^ (double_exponent a + 1) := by
  unfold double_ulp
  rw [← zpow_natCast, ← zpow_add₀ (by norm_num : (2 : ℚ) ≠ 0)]
  congr 1
  push_cast
  ring

theorem log_two_le_self {a : ℚ} (ha : 0 < a) : (2 : ℚ) ^ Int.log 2 a ≤ a := by
  have h := Int.zpow_log_le_self (b := 2) (r := a) (by norm_num) ha
  simpa using h

theorem self_lt_log_two_succ (a : ℚ) : a < (2 : ℚ) ^ (Int.log 2 a + 1) := by
  have h := Int.lt_zpow_succ_log_self (b := 2) (by norm_num) a
  simpa using h

theorem log_two_eq {a : ℚ} {E : ℤ} (h1 : (2 : ℚ) ^ E ≤ a) (h2 : a < 2 ^ (E + 1)) :
    Int.log 2 a = E := by
  have ha : 0 < a := lt_of_lt_of_le (by positivity) h1
  have hle : E ≤ Int.log 2 a :=
    (Int.zpow_le_iff_le_log (b := 2) (by norm_num) ha).mp (by simpa using h1)
  have hlt : Int.log 2 a < E + 1 :=
    (Int.lt_zpow_iff_log_lt (b := 2) (by norm_num) ha).mp (by simpa using h2)
  omega

theorem double_exponent_eq {a : ℚ} {E : ℤ} (hE : -1022 ≤ E) (h1 : (2 : ℚ) ^ E ≤ a)
    (h2 : a < 2 ^ (E + 1)) : double_exponent a = E := by
  unfold double_exponent
  rw [log_two_eq h1 h2]
  exact max_eq_left hE

theorem round_magnitude_zero : round_magnitude 0 = 0 := by
  simp [round_magnitude, round_half_even]

theorem round_magnitude_nonneg {a : ℚ} (ha : 0 ≤ a) : 0 ≤ round_magnitude a := by
  unfold round_magnitude
  have hu := double_ulp_pos a
  have hq : (0 : ℚ) ≤ a / double_ulp a := div_nonneg ha (le_of_lt hu)
  have h0 : (0 : ℤ) ≤ round_half_even (a / double_ulp a) := by
    have := round_half_even_mono hq
    simpa [round_half_even] using this
  have : (0 : ℚ) ≤ (round_half_even (a / double_ulp a) : ℚ) := by exact_mod_cast h0
  positivity

theorem round_magnitude_le_top (a : ℚ) :
    round_magnitude a ≤ 2 ^ (double_exponent a + 1) := by
  have hu := double_ulp_pos a
  have hlt : a < 2 ^ (double_exponent a + 1) := by
    refine lt_of_lt_of_le (self_lt_log_two_succ a) ?_
    apply zpow_le_zpow_right₀ (by norm_num)
    unfold double_exponent
    have := le_max_left (Int.log 2 a) (-1022)
    omega
  have hq : a / double_ulp a ≤ ((2 ^ 53 : ℤ) : ℚ) := by
    rw [div_le_iff₀ hu]
    simp only [Int.cast_pow, Int.cast_ofNat]
    rw [double_ulp_mul_two_pow_53]
    exact le_of_lt hlt
  have hr : round_half_even (a / double_ulp a) ≤ 2 ^ 53 := by
    have := round_half_even_mono hq
    rwa [round_half_even_intCast] at this
  unfold round_magnitude
  rw [← double_ulp_mul_two_pow_53]
  have : (round_half_even (a / double_ulp a) : ℚ) ≤ 2 ^ 53 := by exact_mod_cast hr
  exact mul_le_mul_of_nonneg_right this (le_of_lt hu)

theorem round_magnitude_ge_bottom {a : ℚ} (h : (2 : ℚ) ^ double_exponent a ≤ a) :
    (2 : ℚ) ^ double_exponent a ≤ round_magnitude a := by
  have hu := double_ulp_pos a
  have hq : ((2 ^ 52 : ℤ) : ℚ) ≤ a / double_ulp a := by
    rw [le_div_iff₀ hu]
    simp only [Int.cast_pow, Int.cast_ofNat]
    rw [double_ulp_mul_two_pow_52]
    exact h
  have hr : 2 ^ 52 ≤ round_half_even (a / double_ulp a) := by
    have := round_half_even_mono hq
    rwa [round_half_even_intCast] at this
  unfold round_magnitude
  rw [← double_ulp_mul_two_pow_52]
  have : (2 ^ 52 : ℚ) ≤ (round_half_even (a / double_ulp a) : ℚ) := by exact_mod_cast hr
  exact mul_le_mul_of_nonneg_right this (le_of_lt hu)

theorem round_magnitude_mono {a b : ℚ} (ha : 0 ≤ a) (h : a ≤ b) :
    round_magnitude a ≤ round_magnitude b := by
  rcases eq_or_lt_of_le ha with h0 | hpos
  · rw [← h0, round_magnitude_zero]
    exact round_magnitude_nonneg (le_trans ha h)
  · have hlog : Int.log 2 a ≤ Int.log 2 b := Int.log_mono_right hpos h
    have hE : double_exponent a ≤ double_exponent b := max_le_max hlog (le_refl _)
    rcases eq_or_lt_of_le hE with heq | hlt
    · have hu : double_ulp a = double_ulp b := by unfold double_ulp; rw [heq]
      unfold round_magnitude
      rw [hu]
      have hub := double_ulp_pos b
      have hq : a / double_ulp b ≤ b / double_ulp b := div_le_div_of_nonneg_right h (le_of_lt hub)
      have := round_half_even_mono hq
      have hc : (round_half_even (a / double_ulp b) : ℚ) ≤ round_half_even (b / double_ulp b) := by
        exact_mod_cast this
      exact mul_le_mul_of_nonneg_right hc (le_of_lt hub)
    · have hbE : double_exponent b = Int.log 2 b := by
        unfold double_exponent at hlt ⊢
        have h1 := le_max_right (Int.log 2 a) (-1022)
        apply max_eq_left
        by_contra hc
        rw [max_eq_right (by omega)] at hlt
        omega
      have hb : (2 : ℚ) ^ double_exponent b ≤ b := by
        rw [hbE]; exact log_two_le_self (lt_of_lt_of_le hpos h)
      calc round_magnitude a ≤ 2 ^ (double_exponent a + 1) := round_magnitude_le_top a
        _ ≤ 2 ^ double_exponent b := zpow_le_zpow_right₀ (by norm_num) (by omega)
        _ ≤ round_magnitude b := round_magnitude_ge_bottom hb

theorem round_double_mono {x y : ℚ} (h : x ≤ y) : round_double x ≤ round_double y := by
  unfold round_double
  split_ifs with hx hy hy
  · exact neg_le_neg (round_magnitude_mono (by linarith) (by linarith))
  · have h1 := round_magnitude_nonneg (a := -x) (by linarith)
    have h2 := round_magnitude_nonneg (a := y) (by linarith)
    linarith
  · exfalso; linarith
  · exact round_magnitude_mono (by linarith) h

theorem round_double_zero : round_double 0 = 0 := by
  simp [round_double, round_magnitude_zero]

theorem round_half_even_down {q : ℚ} {f : ℤ} (h1 : (f : ℚ) ≤ q) (h2 : q - f < 1 / 2) :
    round_half_even q = f := by
  have hf : ⌊q⌋ = f := Int.floor_eq_iff.mpr ⟨h1, by linarith⟩
  unfold round_half_even
  rw [hf, if_pos h2]

theorem round_half_even_up {q : ℚ} {f : ℤ} (h1 : 1 / 2 < q - f) (h2 : q < f + 1) :
    round_half_even q = f + 1 := by
  have hf : ⌊q⌋ = f := Int.floor_eq_iff.mpr ⟨by linarith, h2⟩
  unfold round_half_even
  rw [hf, if_neg (by linarith), if_pos h1]

theorem round_half_even_tie {q : ℚ} {f : ℤ} (h : q - f = 1 / 2) :
    round_half_even q = if f % 2 = 0 then f else f + 1 := by
  have hf : ⌊q⌋ = f := Int.floor_eq_iff.mpr ⟨by linarith, by linarith⟩
  unfold round_half_even
  rw [hf, if_neg (by linarith), if_neg (by linarith)]

theorem round_magnitude_eval {a : ℚ} {E m : ℤ} (hE : -1022 ≤ E) (h1 : (2 : ℚ) ^ E ≤ a)
    (h2 : a < 2 ^ (E + 1)) (hm : round_half_even (a / 2 ^ (E - 52)) = m) :
    round_magnitude a = m * 2 ^ (E - 52) := by
  unfold round_magnitude double_ulp
  rw [double_exponent_eq hE h1 h2, hm]

theorem round_magnitude_exact {a : ℚ} {E m : ℤ} (hE : -1022 ≤ E) (h1 : (2 : ℚ) ^ E ≤ a)
    (h2 : a < 2 ^ (E + 1)) (ha : a = m * 2 ^ (E - 52)) : round_magnitude a = a := by
  have hu : (2 : ℚ) ^ (E - 52) ≠ 0 := by positivity
  have hm : round_half_even (a / 2 ^ (E - 52)) = m := by
    rw [ha, mul_div_assoc, div_self hu, mul_one, round_half_even_intCast]
  rw [round_magnitude_eval hE h1 h2 hm, ← ha]

theorem round_double_eval_pos {x : ℚ} {E m : ℤ} (hE : -1022 ≤ E) (h1 : (2 : ℚ) ^ E ≤ x)
    (h2 : x < 2 ^ (E + 1)) (hm : round_half_even (x / 2 ^ (E - 52)) = m) :
    round_double x = m * 2 ^ (E - 52) := by
  have hx : ¬ x < 0 := not_lt.mpr (le_trans (by positivity) h1)
  rw [round_double, if_neg hx, round_magnitude_eval hE h1 h2 hm]

theorem round_double_eval_neg {x : ℚ} {E m : ℤ} (hE : -1022 ≤ E) (h1 : (2 : ℚ) ^ E ≤ -x)
    (h2 : -x < 2 ^ (E + 1)) (hm : round_half_even (-x / 2 ^ (E - 52)) = m) :
    round_double x = -(m * 2 ^ (E - 52)) := by
  have hx : x < 0 := by
    have : (0 : ℚ) < 2 ^ E := by positivity
    linarith
  rw [round_double, if_pos hx, round_magnitude_eval hE h1 h2 hm]

theorem round_double_exact {x : ℚ} {E m : ℤ} (hE : -1022 ≤ E) (h1 : (2 : ℚ) ^ E ≤ |x|)
    (h2 : |x| < 2 ^ (E + 1)) (hx : x = m * 2 ^ (E - 52)) : round_double x = x := by
  have hu : (0 : ℚ) < 2 ^ (E - 52) := by positivity
  by_cases hneg : x < 0
  · rw [abs_of_neg hneg] at h1 h2
    rw [round_double, if_pos hneg,
      round_magnitude_exact (m := -m) hE h1 h2 (by rw [hx]; push_cast; ring), neg_neg]
  · rw [abs_of_nonneg (not_lt.mp hneg)] at h1 h2
    rw [round_double, if_neg hneg, round_magnitude_exact hE h1 h2 hx]

theorem round_double_exact_pos {x : ℚ} {E m : ℤ} (hE : -1022 ≤ E) (h1 : (2 : ℚ) ^ E ≤ x)
    (h2 : x < 2 ^ (E + 1)) (hx : x = m * 2 ^ (E - 52)) : round_double x = x := by
  have hpos : 0 ≤ x := le_trans (by positivity) h1
  exact round_double_exact hE (by rwa [abs_of_nonneg hpos]) (by rwa [abs_of_nonneg hpos]) hx

theorem round_double_exact_neg {x : ℚ} {E m : ℤ} (hE : -1022 ≤ E) (h1 : (2 : ℚ) ^ E ≤ -x)
    (h2 : -x < 2 ^ (E + 1)) (hx : -x = m * 2 ^ (E - 52)) : round_double x = x := by
  have hpos : 0 ≤ -x := le_trans (by positivity) h1
  have hneg : x ≤ 0 := by linarith
  exact round_double_exact (m := -m) hE (by rwa [abs_of_nonpos hneg])
    (by rwa [abs_of_nonpos hneg]) (by push_cast; linarith)

theorem round_magnitude_error {a : ℚ} : |round_magnitude a - a| ≤ double_ulp a / 2 := by
  have hu := double_ulp_pos a
  have h := round_half_even_error (a / double_ulp a)
  have heq : round_magnitude a - a
      = ((round_half_even (a / double_ulp a) : ℚ) - a / double_ulp a) * double_ulp a := by
    unfold round_magnitude
    field_simp
  rw [heq, abs_mul, abs_of_pos hu]
  calc |(round_half_even (a / double_ulp a) : ℚ) - a / double_ulp a| * double_ulp a
      ≤ 1 / 2 * double_ulp a := mul_le_mul_of_nonneg_right h (le_of_lt hu)
    _ = double_ulp a / 2 := by ring

theorem round_double_error (x : ℚ) : |round_double x - x| ≤ double_ulp |x| / 2 := by
  by_cases hneg : x < 0
  · rw [round_double, if_pos hneg, abs_of_neg hneg]
    have h := round_magnitude_error (a := -x)
    rw [show -round_magnitude (-x) - x = -(round_magnitude (-x) - -x) by ring, abs_neg]
    exact h
  · rw [round_double, if_neg hneg, abs_of_nonneg (not_lt.mp hneg)]
    exact round_magnitude_error

theorem double_ulp_le {a : ℚ} (ha : (2 : ℚ) ^ (-1022 : ℤ) ≤ a) :
    double_ulp a ≤ 2 ^ (-52 : ℤ) * a := by
  have hpos : 0 < a := lt_of_lt_of_le (by positivity) ha
  have hlog : (-1022 : ℤ) ≤ Int.log 2 a :=
    (Int.zpow_le_iff_le_log (b := 2) (by norm_num) hpos).mp (by simpa using ha)
  have hE : double_exponent a = Int.log 2 a := max_eq_left hlog
  unfold double_ulp
  rw [hE, sub_eq_add_neg, zpow_add₀ (by norm_num : (2 : ℚ) ≠ 0), mul_comm]
  exact mul_le_mul_of_nonneg_left (log_two_le_self hpos) (by positivity)

/-! ### `do_work` in `double` arithmetic -/

/-- A call that does not overflow is the rounded call, and its two results
are finite. -/
theorem do_work_double_eq {c : Consumer} {work : WORK} {e : ℚ} {r : DoWork}
    (h : c.do_work_double work e = some r) : r = c.do_work_rounded work e := by
  unfold Consumer.do_work_double at h
  split at h
  · exact (Option.some.inj h).symm
  · exact absurd h (by simp)

/-- A call whose two results are finite returns the rounded call. -/
theorem do_work_double_of_finite (c : Consumer) (work : WORK) (e : ℚ) {s g : ℚ}
    (hs : round_double (c._target_frequency_ms - e) = s) (hg : round_double (s + c._lag) = g)
    (hfs : |s| < 2 ^ 1024) (hfg : |g| < 2 ^ 1024) :
    c.do_work_double work e = some (c.do_work_rounded work e) := by
  unfold Consumer.do_work_double
  rw [hs, hg, if_pos ⟨hfs, hfg⟩]

/-- The rounded call when its gained time is positive. -/
theorem do_work_rounded_of_pos (c : Consumer) (work : WORK) (e : ℚ) {s g : ℚ}
    (hs : round_double (c._target_frequency_ms - e) = s) (hg : round_double (s + c._lag) = g)
    (hpos : 0 < g) :
    c.do_work_rounded work e =
      { consumer := { c with _lag := 0 }
        work_sleep := c.work_switch work
        pacing_sleep := some g } := by
  unfold Consumer.do_work_rounded
  simp only [hs, hg, gt_iff_lt, hpos, if_true]

/-- The rounded call when its gained time is not positive. -/
theorem do_work_rounded_of_nonpos (c : Consumer) (work : WORK) (e : ℚ) {s g : ℚ}
    (hs : round_double (c._target_frequency_ms - e) = s) (hg : round_double (s + c._lag) = g)
    (hneg : g ≤ 0) :
    c.do_work_rounded work e =
      { consumer := { c with _lag := g }
        work_sleep := c.work_switch work
        pacing_sleep := none } := by
  unfold Consumer.do_work_rounded
  simp only [hs, hg, gt_iff_lt, not_lt.mpr hneg, if_false]

/-- Lag the rounded call leaves. -/
theorem do_work_rounded_lag (c : Consumer) (work : WORK) (e : ℚ) :
    (c.do_work_rounded work e).consumer._lag
      = min 0 (round_double (round_double (c._target_frequency_ms - e) + c._lag)) := by
  by_cases h : 0 < round_double (round_double (c._target_frequency_ms - e) + c._lag)
  · rw [do_work_rounded_of_pos c work e rfl rfl h, min_eq_left (le_of_lt h)]
  · rw [do_work_rounded_of_nonpos c work e rfl rfl (not_lt.mp h), min_eq_right (not_lt.mp h)]

/-- Member `_target_frequency_ms` is the same after the rounded call. -/
theorem do_work_rounded_target (c : Consumer) (work : WORK) (e : ℚ) :
    (c.do_work_rounded work e).consumer._target_frequency_ms = c._target_frequency_ms := by
  by_cases h : 0 < round_double (round_double (c._target_frequency_ms - e) + c._lag)
  · rw [do_work_rounded_of_pos c work e rfl rfl h]
  · rw [do_work_rounded_of_nonpos c work e rfl rfl (not_lt.mp h)]

/-- Length of the pacing sleep of the rounded call. -/
theorem do_work_rounded_pacing_ms (c : Consumer) (work : WORK) (e : ℚ) :
    (c.do_work_rounded work e).pacing_ms
      = max 0 (round_double (round_double (c._target_frequency_ms - e) + c._lag)) := by
  by_cases h : 0 < round_double (round_double (c._target_frequency_ms - e) + c._lag)
  · rw [do_work_rounded_of_pos c work e rfl rfl h, max_eq_right (le_of_lt h)]
    rfl
  · rw [do_work_rounded_of_nonpos c work e rfl rfl (not_lt.mp h), max_eq_left (not_lt.mp h)]
    rfl

/-- The rounded call does not sleep exactly when its gained time is not
positive. -/
theorem do_work_rounded_no_sleep_iff (c : Consumer) (work : WORK) (e : ℚ) :
    (c.do_work_rounded work e).pacing_sleep = none
      ↔ round_double (round_double (c._target_frequency_ms - e) + c._lag) ≤ 0 := by
  by_cases h : 0 < round_double (round_double (c._target_frequency_ms - e) + c._lag)
  · rw [do_work_rounded_of_pos c work e rfl rfl h]
    simp [h]
  · rw [do_work_rounded_of_nonpos c work e rfl rfl (not_lt.mp h)]
    simp [not_lt.mp h]

/-- One rounded call accounts for one target period up to its rounding
error. -/
theorem do_work_rounded_accounting (c : Consumer) (work : WORK) (e : ℚ) :
    e + (c.do_work_rounded work e).pacing_ms + (c.do_work_rounded work e).consumer._lag
      = c._target_frequency_ms + c._lag + c.rounding_error e := by
  rw [do_work_rounded_pacing_ms, do_work_rounded_lag, Consumer.rounding_error]
  rcases le_total 0 (round_double (round_double (c._target_frequency_ms - e) + c._lag))
    with h | h
  · rw [max_eq_right h, min_eq_left h]; ring
  · rw [max_eq_left h, min_eq_right h]; ring

/-- The rounding error of one call is at most half a spacing for each of its
two operations. -/
theorem rounding_error_le (c : Consumer) (e : ℚ) :
    |c.rounding_error e|
      ≤ double_ulp |c._target_frequency_ms - e| / 2
        + double_ulp |round_double (c._target_frequency_ms - e) + c._lag| / 2 := by
  unfold Consumer.rounding_error
  exact le_trans (abs_add _ _)
    (add_le_add (round_double_error _) (round_double_error _))

/-- A sequence of calls in `double` arithmetic, first call split off. -/
theorem do_work_calls_double_cons {c c1 : Consumer} {call : WORK × ℚ}
    {rest : List (WORK × ℚ)} (h : c.do_work_calls_double (call :: rest) = some c1) :
    c.do_work_double call.1 call.2 = some (c.do_work_rounded call.1 call.2) ∧
    (c.do_work_rounded call.1 call.2).consumer.do_work_calls_double rest = some c1 := by
  rw [Consumer.do_work_calls_double] at h
  cases hr : c.do_work_double call.1 call.2 with
  | none => rw [hr] at h; exact absurd h (by simp)
  | some r =>
    rw [hr, Option.some_bind] at h
    have hreq := do_work_double_eq hr
    subst hreq
    exact ⟨rfl, h⟩

/-- Time accounting over a sequence of calls in `double` arithmetic. -/
theorem total_time_double_eq (calls : List (WORK × ℚ)) :
    ∀ (c c1 : Consumer), c.do_work_calls_double calls = some c1 →
      ∃ t, c.total_time_double calls = some t ∧
        t = calls.length * c._target_frequency_ms + c._lag - c1._lag
            + c.rounding_errors calls := by
  induction calls with
  | nil =>
    intro c c1 h
    rw [Consumer.do_work_calls_double] at h
    have hc := Option.some.inj h
    subst hc
    exact ⟨0, by rw [Consumer.total_time_double], by simp [Consumer.rounding_errors]⟩
  | cons call rest ih =>
    intro c c1 h
    obtain ⟨hr, hrest⟩ := do_work_calls_double_cons h
    obtain ⟨t, ht, hteq⟩ := ih _ c1 hrest
    have hacc := do_work_rounded_accounting c call.1 call.2
    have htar := do_work_rounded_target c call.1 call.2
    refine ⟨call.2 + (c.do_work_rounded call.1 call.2).pacing_ms + t, ?_, ?_⟩
    · rw [Consumer.total_time_double, hr, Option.some_bind, ht, Option.map_some']
    · rw [hteq, htar]
      simp only [Consumer.rounding_errors, List.length_cons]
      push_cast
      linarith

/-! ### Time accounting in `double` arithmetic -/

/-- The constructor call of `main` in `double` arithmetic: `1000.0 / 100.0`
is `10`. -/
theorem new_double_main :
    Consumer.new_double 2 20 100 = some ⟨2, 20, 10, 0⟩ := by
  have h : round_double (1000 / ((100 : ℕ) : ℚ)) = 10 :=
    (round_double_exact_pos (E := 3) (m := 5629499534213120) (by norm_num) (by norm_num)
      (by norm_num) (by norm_num)).trans (by norm_num)
  simp only [Consumer.new_double, h]
  rfl

/-- The consumer of `main` on a small item measured at the `double` nearest
to `0.1`: the subtraction `10 - e` rounds up, and the call sleeps the rounded
difference. -/
theorem do_work_double_tenth :
    (⟨2, 20, 10, 0⟩ : Consumer).do_work_double WORK.SMALL (3602879701896397 / 2 ^ 55)
      = some
          { consumer := ⟨2, 20, 10, 0⟩
            work_sleep := some 2
            pacing_sleep := some (5573204538870989 / 2 ^ 49) } := by
  have hs : round_double ((⟨2, 20, 10, 0⟩ : Consumer)._target_frequency_ms
      - 3602879701896397 / 2 ^ 55) = 5573204538870989 / 2 ^ 49 := by
    have h := round_double_eval_pos (x := (10 : ℚ) - 3602879701896397 / 2 ^ 55) (E := 3)
      (m := 5573204538870988 + 1) (by norm_num) (by norm_num) (by norm_num)
      (round_half_even_up (by norm_num) (by norm_num))
    rw [show (⟨2, 20, 10, 0⟩ : Consumer)._target_frequency_ms = 10 from rfl, h]
    norm_num
  have hg : round_double (5573204538870989 / 2 ^ 49 + (⟨2, 20, 10, 0⟩ : Consumer)._lag)
      = 5573204538870989 / 2 ^ 49 := by
    rw [show (⟨2, 20, 10, 0⟩ : Consumer)._lag = 0 from rfl, add_zero]
    exact round_double_exact_pos (E := 3) (m := 5573204538870989) (by norm_num)
      (by norm_num) (by norm_num) (by norm_num)
  rw [do_work_double_of_finite _ _ _ hs hg (abs_lt.mpr ⟨by norm_num, by norm_num⟩)
      (abs_lt.mpr ⟨by norm_num, by norm_num⟩),
    do_work_rounded_of_pos _ _ _ hs hg (by norm_num)]
  rfl

/-- Counterexample to C15, with the constants of `main` in the code's `double`
arithmetic: target period `10`, lag `0`, and a small item whose measured work
time is the `double` nearest to `0.1`. The call sleeps
`5573204538870989 / 2 ^ 49` and leaves lag `0`, so measured work time plus
pacing sleep is `10 + 13 / 2 ^ 55`, not target period plus lag before minus lag
after, and the total over this one call is not `1 * 10` although the final lag
is `0`. -/
theorem time_accounting_fails_in_double :
    Consumer.new_double 2 20 100 = some ⟨2, 20, 10, 0⟩ ∧
    round_double (3602879701896397 / 2 ^ 55) = 3602879701896397 / 2 ^ 55 ∧
    (⟨2, 20, 10, 0⟩ : Consumer).do_work_double WORK.SMALL (3602879701896397 / 2 ^ 55)
      = some
          { consumer := ⟨2, 20, 10, 0⟩
            work_sleep := some 2
            pacing_sleep := some (5573204538870989 / 2 ^ 49) } ∧
    (3602879701896397 / 2 ^ 55 + 5573204538870989 / 2 ^ 49 : ℚ) = 10 + 13 / 2 ^ 55 ∧
    (3602879701896397 / 2 ^ 55 + 5573204538870989 / 2 ^ 49 : ℚ) ≠ 10 + 0 - 0 ∧
    (⟨2, 20, 10, 0⟩ : Consumer).total_time_double [(WORK.SMALL, 3602879701896397 / 2 ^ 55)]
      = some (10 + 13 / 2 ^ 55) ∧
    (10 + 13 / 2 ^ 55 : ℚ) ≠ 1 * 10 := by
  refine ⟨new_double_main, ?_, do_work_double_tenth, by norm_num, by norm_num, ?_, by norm_num⟩
  · exact round_double_exact_pos (E := -4) (m := 7205759403792794) (by norm_num)
      (by norm_num) (by norm_num) (by norm_num)
  · rw [Consumer.total_time_double, do_work_double_tenth, Option.some_bind,
      Consumer.total_time_double, Option.map_some']
    norm_num [DoWork.pacing_ms]

/-- C15 (amended). Time accounting in the code's `double` arithmetic: for every
`do_work` call that does not overflow, measured work time plus pacing sleep
equals target period plus lag before minus lag after plus the rounding error
of the call's subtraction and addition, which is at most half a spacing of
the `double` numbers for each of the two, so the identity is exact when
neither operation rounds; and for every sequence of calls from lag `0` that
does not overflow, the measured work times plus the pacing sleeps add up to
the number of calls times the target period minus the final lag plus the
rounding errors of the calls: to exactly that when no operation rounds, and
then to the number of calls times the target period when the final lag
is `0`. -/
theorem time_accounting_double (c : Consumer) :
    (∀ work e r, c.do_work_double work e = some r →
      e + r.pacing_ms
        = c._target_frequency_ms + c._lag - r.consumer._lag + c.rounding_error e ∧
      |c.rounding_error e|
        ≤ double_ulp |c._target_frequency_ms - e| / 2
          + double_ulp |round_double (c._target_frequency_ms - e) + c._lag| / 2 ∧
      (round_double (c._target_frequency_ms - e) = c._target_frequency_ms - e →
        round_double (c._target_frequency_ms - e + c._lag)
          = c._target_frequency_ms - e + c._lag →
        e + r.pacing_ms = c._target_frequency_ms + c._lag - r.consumer._lag)) ∧
    (∀ calls c1, c._lag = 0 → c.do_work_calls_double calls = some c1 →
      ∃ t, c.total_time_double calls = some t ∧
        t = calls.length * c._target_frequency_ms - c1._lag + c.rounding_errors calls ∧
        (c.rounding_errors calls = 0 →
          t = calls.length * c._target_frequency_ms - c1._lag) ∧
        (c.rounding_errors calls = 0 → c1._lag = 0 →
          t = calls.length * c._target_frequency_ms)) := by
  constructor
  · intro work e r hr
    have hreq := do_work_double_eq hr
    subst hreq
    have hacc := do_work_rounded_accounting c work e
    refine ⟨by linarith, rounding_error_le c e, fun h1 h2 => ?_⟩
    have herr : c.rounding_error e = 0 := by
      unfold Consumer.rounding_error
      rw [h1, h2]
      ring
    rw [herr] at hacc
    linarith
  · intro calls c1 hlag hrun
    obtain ⟨t, ht, hteq⟩ := total_time_double_eq calls c c1 hrun
    rw [hlag, add_zero] at hteq
    refine ⟨t, ht, hteq, fun h0 => ?_, fun h0 hN => ?_⟩
    · rw [hteq, h0, add_zero]
    · rw [hteq, h0, hN, add_zero, sub_zero]

/-- Witness of C15 (amended) on the consumer of `main`: for the small item
measured at the `double` nearest to `0.1` the rounding error is `13 / 2 ^ 55`,
and measured work time plus pacing sleep exceeds the target period by exactly
that. -/
theorem time_accounting_double_witness :
    (⟨2, 20, 10, 0⟩ : Consumer).rounding_error (3602879701896397 / 2 ^ 55) = 13 / 2 ^ 55 ∧
    (3602879701896397 / 2 ^ 55 + 5573204538870989 / 2 ^ 49 : ℚ)
      = 10 + 0 - 0 + (⟨2, 20, 10, 0⟩ : Consumer).rounding_error (3602879701896397 / 2 ^ 55) := by
  have h := ((time_accounting_double ⟨2, 20, 10, 0⟩).1 WORK.SMALL
    (3602879701896397 / 2 ^ 55) _ do_work_double_tenth).1
  have hsum : (3602879701896397 / 2 ^ 55 + 5573204538870989 / 2 ^ 49 : ℚ)
      = 10 + 0 - 0 + (⟨2, 20, 10, 0⟩ : Consumer).rounding_error (3602879701896397 / 2 ^ 55) := by
    simpa [DoWork.pacing_ms] using h
  refine ⟨?_, hsum⟩
  have h13 : (3602879701896397 / 2 ^ 55 + 5573204538870989 / 2 ^ 49 : ℚ) = 10 + 13 / 2 ^ 55 := by
    norm_num
  linarith

/-! ### Closed form of the lag in `double` arithmetic -/

/-- Accumulation with one more call in front. -/
theorem double_accumulate_cons (T e : ℚ) (es : List ℚ) (start : ℚ) :
    double_accumulate T (e :: es) start
      = double_accumulate T es (round_double (round_double (T - e) + start)) := by
  simp only [double_accumulate, List.foldl_cons]

/-- Accumulation is monotone in its start. -/
theorem double_accumulate_mono (T : ℚ) (es : List ℚ) :
    ∀ {a b : ℚ}, a ≤ b → double_accumulate T es a ≤ double_accumulate T es b := by
  induction es with
  | nil => intro a b h; exact h
  | cons e es ih =>
    intro a b h
    rw [double_accumulate_cons, double_accumulate_cons]
    exact ih (round_double_mono (by linarith))

/-- Accumulation from the smaller of two starts. -/
theorem double_accumulate_min (T : ℚ) (es : List ℚ) (a b : ℚ) :
    double_accumulate T es (min a b)
      = min (double_accumulate T es a) (double_accumulate T es b) := by
  rcases le_total a b with h | h
  · rw [min_eq_left h, min_eq_left (double_accumulate_mono T es h)]
  · rw [min_eq_right h, min_eq_right (double_accumulate_mono T es h)]

/-- The closed form of an empty sequence is `0`. -/
theorem double_lag_closed_form_nil (T : ℚ) : double_lag_closed_form T [] = 0 := by
  simp [double_lag_closed_form]

/-- The closed form with one more measured work time in front: the new
suffix sum is the accumulation over the whole sequence. -/
theorem double_lag_closed_form_cons (T e : ℚ) (es : List ℚ) :
    double_lag_closed_form T (e :: es)
      = min (double_accumulate T (e :: es) 0) (double_lag_closed_form T es) := by
  simp only [double_lag_closed_form, List.length_cons, List.range_succ_eq_map, List.map_cons,
    List.map_map, List.foldr_cons]
  congr 1

/-- The closed form is at most the accumulation over the whole sequence. -/
theorem double_lag_closed_form_le (T : ℚ) (es : List ℚ) :
    double_lag_closed_form T es ≤ double_accumulate T es 0 := by
  cases es with
  | nil => simp [double_lag_closed_form_nil, double_accumulate]
  | cons e es =>
    rw [double_lag_closed_form_cons]
    exact min_le_left _ _

/-- Member `_target_frequency_ms` is the same after any sequence of calls in
`double` arithmetic. -/
theorem do_work_calls_double_target (calls : List (WORK × ℚ)) :
    ∀ c c1 : Consumer, c.do_work_calls_double calls = some c1 →
      c1._target_frequency_ms = c._target_frequency_ms := by
  induction calls with
  | nil =>
    intro c c1 h
    rw [Consumer.do_work_calls_double] at h
    rw [← Option.some.inj h]
  | cons call rest ih =>
    intro c c1 h
    obtain ⟨-, hrest⟩ := do_work_calls_double_cons h
    rw [ih _ c1 hrest, do_work_rounded_target]

/-- The order-theoretic step of the closed form: `A` is the closed form of the
rest, `B` the accumulation over the rest from `0`, `X` the accumulation over
the whole sequence from the lag, `Y` that from `0`. -/
theorem min_step_order (A B X Y : ℚ) (hAB : A ≤ B) (hXY : X ≤ Y) :
    min A (min B X) = min (min Y A) X := by
  simp only [min_def]
  split_ifs <;> linarith

/-- Lag after a sequence of calls in `double` arithmetic from a lag that is
not positive: the smaller of the closed form and the accumulation from the
old lag. -/
theorem do_work_calls_double_lag (calls : List (WORK × ℚ)) :
    ∀ c c1 : Consumer, c._lag ≤ 0 → c.do_work_calls_double calls = some c1 →
      c1._lag
        = min (double_lag_closed_form c._target_frequency_ms (calls.map Prod.snd))
            (double_accumulate c._target_frequency_ms (calls.map Prod.snd) c._lag) := by
  induction calls with
  | nil =>
    intro c c1 hlag h
    rw [Consumer.do_work_calls_double] at h
    rw [← Option.some.inj h]
    simp [double_lag_closed_form_nil, double_accumulate, hlag]
  | cons call rest ih =>
    intro c c1 hlag h
    obtain ⟨-, hrest⟩ := do_work_calls_double_cons h
    have hl := do_work_rounded_lag c call.1 call.2
    have ht := do_work_rounded_target c call.1 call.2
    rw [ih _ c1 (by rw [hl]; exact min_le_left _ _) hrest, ht, hl, double_accumulate_min,
      List.map_cons, double_lag_closed_form_cons, double_accumulate_cons]
    exact min_step_order _ _ _ _ (double_lag_closed_form_le _ _)
      (double_accumulate_mono _ _ (round_double_mono (by linarith)))

/-- C16 (amended). Closed form of the lag in the code's `double` arithmetic:
each `do_work` call that does not overflow sets the lag to
`min 0 (lag + (T - e))` with the difference and the sum each rounded to a
`double`; and from lag `0`, after a sequence of calls with measured work times
`e_1, ..., e_N` that does not overflow, the lag is the minimum of `0` and of
the suffix sums `sum_{i=k..N} (T - e_i)` for `1 ≤ k ≤ N`, each suffix sum
accumulated in `double` arithmetic in call order: it equals
`double_lag_closed_form`, it is at most `0` and at most every such suffix sum,
and it is `0` or one of them. -/
theorem lag_closed_form_double (c : Consumer) :
    (∀ work e r, c.do_work_double work e = some r →
      r.consumer._lag
        = min 0 (round_double (c._lag + round_double (c._target_frequency_ms - e)))) ∧
    (∀ calls c1, c._lag = 0 → c.do_work_calls_double calls = some c1 →
      c1._lag = double_lag_closed_form c._target_frequency_ms (calls.map Prod.snd) ∧
      c1._lag ≤ 0 ∧
      (∀ k, 1 ≤ k → k ≤ calls.length →
        c1._lag ≤ double_suffix_sum c._target_frequency_ms (calls.map Prod.snd) k) ∧
      (c1._lag = 0 ∨
        ∃ k, 1 ≤ k ∧ k ≤ calls.length ∧
          c1._lag = double_suffix_sum c._target_frequency_ms (calls.map Prod.snd) k)) := by
  constructor
  · intro work e r hr
    rw [do_work_double_eq hr, do_work_rounded_lag, add_comm]
  · intro calls c1 hlag hrun
    have heq : c1._lag
        = double_lag_closed_form c._target_frequency_ms (calls.map Prod.snd) := by
      rw [do_work_calls_double_lag calls c c1 (le_of_eq hlag) hrun, hlag]
      exact min_eq_left (double_lag_closed_form_le _ _)
    obtain ⟨h0, hle, hmem⟩ := foldr_min_zero_spec
      ((List.range (calls.map Prod.snd).length).map fun j =>
        double_suffix_sum c._target_frequency_ms (calls.map Prod.snd) (j + 1))
    refine ⟨heq, by rw [heq]; exact h0, ?_, ?_⟩
    · intro k hk1 hkN
      rw [heq]
      apply hle
      rw [List.mem_map]
      exact ⟨k - 1, by rw [List.mem_range, List.length_map]; omega,
        by rw [Nat.sub_add_cancel hk1]⟩
    · rw [heq]
      rcases hmem with h | h
      · exact Or.inl h
      · rw [List.mem_map] at h
        obtain ⟨j, hj, hjeq⟩ := h
        rw [List.mem_range, List.length_map] at hj
        exact Or.inr ⟨j + 1, by omega, by omega, hjeq.symm⟩

/-! ### A run at `3` Hz in `double` arithmetic -/

/-- A call in `double` arithmetic whose gained time is finite and not
positive: no pacing sleep, the gained time becomes the lag. -/
theorem do_work_double_of_nonpos (c : Consumer) (work : WORK) (e : ℚ) {s g : ℚ}
    (hs : round_double (c._target_frequency_ms - e) = s) (hg : round_double (s + c._lag) = g)
    (hfs : |s| < 2 ^ 1024) (hfg : |g| < 2 ^ 1024) (hneg : g ≤ 0) :
    c.do_work_double work e = some
      { consumer := { c with _lag := g }
        work_sleep := c.work_switch work
        pacing_sleep := none } := by
  rw [do_work_double_of_finite c work e hs hg hfs hfg,
    do_work_rounded_of_nonpos c work e hs hg hneg]

/-- A call in `double` arithmetic whose gained time is finite and positive:
it sleeps the gained time and resets the lag. -/
theorem do_work_double_of_pos (c : Consumer) (work : WORK) (e : ℚ) {s g : ℚ}
    (hs : round_double (c._target_frequency_ms - e) = s) (hg : round_double (s + c._lag) = g)
    (hfs : |s| < 2 ^ 1024) (hfg : |g| < 2 ^ 1024) (hpos : 0 < g) :
    c.do_work_double work e = some
      { consumer := { c with _lag := 0 }
        work_sleep := c.work_switch work
        pacing_sleep := some g } := by
  rw [do_work_double_of_finite c work e hs hg hfs hfg,
    do_work_rounded_of_pos c work e hs hg hpos]

/-- The quotient `1000.0 / 3.0` as a `double`. -/
theorem round_double_third :
    round_double (1000 / 3) = 5864062014805333 / 2 ^ 44 := by
  rw [round_double_eval_pos (x := (1000 : ℚ) / 3) (E := 8) (m := 5864062014805333)
    (by norm_num) (by norm_num) (by norm_num) (round_half_even_down (by norm_num) (by norm_num))]
  norm_num

/-- The period of `3` Hz is a `double`. -/
theorem round_double_third_period :
    round_double (5864062014805333 / 2 ^ 44) = 5864062014805333 / 2 ^ 44 :=
  round_double_exact_pos (E := 8) (m := 5864062014805333) (by norm_num) (by norm_num)
    (by norm_num) (by norm_num)

/-- Constructor call `Consumer(2, 20, 3)` in `double` arithmetic. -/
theorem new_double_third :
    Consumer.new_double 2 20 3 = some ⟨2, 20, 5864062014805333 / 2 ^ 44, 0⟩ := by
  have h : round_double (1000 / ((3 : ℕ) : ℚ)) = 5864062014805333 / 2 ^ 44 := by
    rw [show ((3 : ℕ) : ℚ) = 3 by norm_num]
    exact round_double_third
  simp only [Consumer.new_double, h]
  rfl

/-- First call, measured at `1000`: the difference `T - 1000` lies halfway
between two `double` numbers and rounds to the even one; no pacing sleep. -/
theorem third_call_1 :
    (⟨2, 20, 5864062014805333 / 2 ^ 44, 0⟩ : Consumer).do_work_double WORK.HEAVY 1000
      = some
          { consumer := ⟨2, 20, 5864062014805333 / 2 ^ 44, -(5864062014805334 / 2 ^ 43)⟩
            work_sleep := some 20
            pacing_sleep := none } := by
  have hs : round_double ((5864062014805333 : ℚ) / 2 ^ 44 - 1000)
      = -(5864062014805334 / 2 ^ 43) := by
    rw [round_double_eval_neg (E := 9) (m := 5864062014805334) (by norm_num) (by norm_num)
      (by norm_num)
      ((round_half_even_tie (f := 5864062014805333) (by norm_num)).trans (by norm_num))]
    norm_num
  have hg : round_double (-(5864062014805334 / 2 ^ 43) + (0 : ℚ))
      = -(5864062014805334 / 2 ^ 43) := by
    rw [add_zero]
    exact round_double_exact_neg (E := 9) (m := 5864062014805334) (by norm_num)
      (by norm_num) (by norm_num) (by norm_num)
  exact do_work_double_of_nonpos ⟨2, 20, 5864062014805333 / 2 ^ 44, 0⟩ WORK.HEAVY 1000 hs hg
    (abs_lt.mpr ⟨by norm_num, by norm_num⟩) (abs_lt.mpr ⟨by norm_num, by norm_num⟩)
    (by norm_num)

/-- Second call, measured at `0`: still in debt, no pacing sleep. -/
theorem third_call_2 :
    (⟨2, 20, 5864062014805333 / 2 ^ 44, -(5864062014805334 / 2 ^ 43)⟩ :
        Consumer).do_work_double WORK.SMALL 0
      = some
          { consumer := ⟨2, 20, 5864062014805333 / 2 ^ 44, -(5864062014805335 / 2 ^ 44)⟩
            work_sleep := some 2
            pacing_sleep := none } := by
  have hs : round_double ((5864062014805333 : ℚ) / 2 ^ 44 - 0)
      = 5864062014805333 / 2 ^ 44 := by
    rw [sub_zero]
    exact round_double_third_period
  have hg : round_double ((5864062014805333 : ℚ) / 2 ^ 44 + -(5864062014805334 / 2 ^ 43))
      = -(5864062014805335 / 2 ^ 44) := by
    rw [show (5864062014805333 : ℚ) / 2 ^ 44 + -(5864062014805334 / 2 ^ 43)
      = -(5864062014805335 / 2 ^ 44) by norm_num]
    exact round_double_exact_neg (E := 8) (m := 5864062014805335) (by norm_num)
      (by norm_num) (by norm_num) (by norm_num)
  exact do_work_double_of_nonpos
    ⟨2, 20, 5864062014805333 / 2 ^ 44, -(5864062014805334 / 2 ^ 43)⟩ WORK.SMALL 0 hs hg
    (abs_lt.mpr ⟨by norm_num, by norm_num⟩) (abs_lt.mpr ⟨by norm_num, by norm_num⟩)
    (by norm_num)

/-- Third call, measured at `0`: the debt left is `2 ^ -43`, no pacing
sleep. -/
theorem third_call_3 :
    (⟨2, 20, 5864062014805333 / 2 ^ 44, -(5864062014805335 / 2 ^ 44)⟩ :
        Consumer).do_work_double WORK.SMALL 0
      = some
          { consumer := ⟨2, 20, 5864062014805333 / 2 ^ 44, -(1 / 2 ^ 43)⟩
            work_sleep := some 2
            pacing_sleep := none } := by
  have hs : round_double ((5864062014805333 : ℚ) / 2 ^ 44 - 0)
      = 5864062014805333 / 2 ^ 44 := by
    rw [sub_zero]
    exact round_double_third_period
  have hg : round_double ((5864062014805333 : ℚ) / 2 ^ 44 + -(5864062014805335 / 2 ^ 44))
      = -(1 / 2 ^ 43) := by
    rw [show (5864062014805333 : ℚ) / 2 ^ 44 + -(5864062014805335 / 2 ^ 44)
      = -(1 / 2 ^ 43) by norm_num]
    exact round_double_exact_neg (E := -43) (m := 4503599627370496) (by norm_num)
      (by norm_num) (by norm_num) (by norm_num)
  exact do_work_double_of_nonpos
    ⟨2, 20, 5864062014805333 / 2 ^ 44, -(5864062014805335 / 2 ^ 44)⟩ WORK.SMALL 0 hs hg
    (abs_lt.mpr ⟨by norm_num, by norm_num⟩) (abs_lt.mpr ⟨by norm_num, by norm_num⟩)
    (by norm_num)

/-- Fourth call, measured at `0`: the debt is paid and the call sleeps the
period less `2 ^ -43`. -/
theorem third_call_4 :
    (⟨2, 20, 5864062014805333 / 2 ^ 44, -(1 / 2 ^ 43)⟩ : Consumer).do_work_double WORK.SMALL 0
      = some
          { consumer := ⟨2, 20, 5864062014805333 / 2 ^ 44, 0⟩
            work_sleep := some 2
            pacing_sleep := some (5864062014805331 / 2 ^ 44) } := by
  have hs : round_double ((5864062014805333 : ℚ) / 2 ^ 44 - 0)
      = 5864062014805333 / 2 ^ 44 := by
    rw [sub_zero]
    exact round_double_third_period
  have hg : round_double ((5864062014805333 : ℚ) / 2 ^ 44 + -(1 / 2 ^ 43))
      = 5864062014805331 / 2 ^ 44 := by
    rw [show (5864062014805333 : ℚ) / 2 ^ 44 + -(1 / 2 ^ 43)
      = 5864062014805331 / 2 ^ 44 by norm_num]
    exact round_double_exact_pos (E := 8) (m := 5864062014805331) (by norm_num)
      (by norm_num) (by norm_num) (by norm_num)
  exact do_work_double_of_pos
    ⟨2, 20, 5864062014805333 / 2 ^ 44, -(1 / 2 ^ 43)⟩ WORK.SMALL 0 hs hg
    (abs_lt.mpr ⟨by norm_num, by norm_num⟩) (abs_lt.mpr ⟨by norm_num, by norm_num⟩)
    (by norm_num)

/-- A sequence of calls in `double` arithmetic whose first call returns. -/
theorem do_work_calls_double_step (c : Consumer) (work : WORK) (e : ℚ)
    (rest : List (WORK × ℚ)) {r : DoWork} (h : c.do_work_double work e = some r) :
    c.do_work_calls_double ((work, e) :: rest) = r.consumer.do_work_calls_double rest := by
  rw [Consumer.do_work_calls_double, h, Option.some_bind]

/-- The first three calls of the run. -/
theorem third_run_3 :
    (⟨2, 20, 5864062014805333 / 2 ^ 44, 0⟩ : Consumer).do_work_calls_double
        [(WORK.HEAVY, 1000), (WORK.SMALL, 0), (WORK.SMALL, 0)]
      = some ⟨2, 20, 5864062014805333 / 2 ^ 44, -(1 / 2 ^ 43)⟩ := by
  rw [do_work_calls_double_step _ _ _ _ third_call_1,
    do_work_calls_double_step _ _ _ _ third_call_2,
    do_work_calls_double_step _ _ _ _ third_call_3]
  rfl

/-- Counterexample to C16, in the code's `double` arithmetic:
`Consumer(2, 20, 3)` stores the period `5864062014805333 / 2 ^ 44`, and after
calls with measured work times `1000, 0, 0` from lag `0` its lag is
`-(1 / 2 ^ 43)`, whereas the minimum of `0` and of the suffix sums is
`-(1 / 2 ^ 44)` for the stored period and `0` for the period `1000 / 3`. -/
theorem lag_closed_form_fails_in_double :
    Consumer.new_double 2 20 3 = some ⟨2, 20, 5864062014805333 / 2 ^ 44, 0⟩ ∧
    (⟨2, 20, 5864062014805333 / 2 ^ 44, 0⟩ : Consumer).do_work_calls_double
        [(WORK.HEAVY, 1000), (WORK.SMALL, 0), (WORK.SMALL, 0)]
      = some ⟨2, 20, 5864062014805333 / 2 ^ 44, -(1 / 2 ^ 43)⟩ ∧
    lag_closed_form (5864062014805333 / 2 ^ 44) [1000, 0, 0] = -(1 / 2 ^ 44) ∧
    lag_closed_form (1000 / 3) [1000, 0, 0] = 0 ∧
    (-(1 / 2 ^ 43) : ℚ) ≠ -(1 / 2 ^ 44) ∧
    (-(1 / 2 ^ 43) : ℚ) ≠ 0 := by
  refine ⟨new_double_third, third_run_3, ?_, ?_, by norm_num, by norm_num⟩ <;>
    norm_num [lag_closed_form, suffix_slack_sum, List.range_succ_eq_map]

/-- Witness of C16 (amended) on the run of `Consumer(2, 20, 3)` with measured
work times `1000, 0, 0`: the closed form in `double` arithmetic is the lag
`-(1 / 2 ^ 43)` the code holds, and the lag is the suffix sum over all three
calls. -/
theorem lag_closed_form_double_witness :
    double_lag_closed_form (5864062014805333 / 2 ^ 44) [1000, 0, 0] = -(1 / 2 ^ 43) ∧
    (-(1 / 2 ^ 43) : ℚ) ≤ double_suffix_sum (5864062014805333 / 2 ^ 44) [1000, 0, 0] 1 ∧
    (-(1 / 2 ^ 43) : ℚ) ≤ double_suffix_sum (5864062014805333 / 2 ^ 44) [1000, 0, 0] 3 := by
  have h := (lag_closed_form_double ⟨2, 20, 5864062014805333 / 2 ^ 44, 0⟩).2
    [(WORK.HEAVY, 1000), (WORK.SMALL, 0), (WORK.SMALL, 0)] _ rfl third_run_3
  exact ⟨h.1.symm, h.2.2.1 1 (by decide) (by decide), h.2.2.1 3 (by decide) (by decide)⟩

/-! ### Catch-up in `double` arithmetic -/

/-- Accumulation over one more call measured at `0`, added at the end. -/
theorem double_accumulate_replicate_succ (T : ℚ) (n : Nat) (start : ℚ) :
    double_accumulate T (List.replicate (n + 1) 0) start
      = round_double (round_double (T - 0)
          + double_accumulate T (List.replicate n 0) start) := by
  simp only [double_accumulate, List.replicate_succ', List.foldl_append, List.foldl_cons,
    List.foldl_nil]

/-- The accumulated debt is the accumulation over the slow call and the calls
measured at `0`. -/
theorem double_debt_eq (T e0 : ℚ) (n : Nat) :
    double_debt T e0 n = double_accumulate T (e0 :: List.replicate n 0) 0 := by
  induction n with
  | zero => simp [double_debt, double_accumulate]
  | succ n ih =>
    rw [double_debt, ih, double_accumulate_cons, double_accumulate_cons,
      double_accumulate_replicate_succ]

/-- Calls measured at `0` never accumulate a debt from a start that is not
negative. -/
theorem double_accumulate_replicate_nonneg (T : ℚ) (hT : 0 ≤ T) (n : Nat) :
    ∀ start : ℚ, 0 ≤ start → 0 ≤ double_accumulate T (List.replicate n 0) start := by
  induction n with
  | zero => intro start h; simpa [double_accumulate] using h
  | succ n ih =>
    intro start h
    rw [List.replicate_succ, double_accumulate_cons]
    apply ih
    have h1 : 0 ≤ round_double (T - 0) := by
      have := round_double_mono (show (0 : ℚ) ≤ T - 0 by linarith)
      rwa [round_double_zero] at this
    have := round_double_mono (show (0 : ℚ) ≤ round_double (T - 0) + start by linarith)
    rwa [round_double_zero] at this

/-- The closed form over calls measured at `0` is `0`. -/
theorem double_lag_closed_form_replicate (T : ℚ) (hT : 0 ≤ T) (n : Nat) :
    double_lag_closed_form T (List.replicate n 0) = 0 := by
  induction n with
  | zero => exact double_lag_closed_form_nil T
  | succ n ih =>
    rw [List.replicate_succ, double_lag_closed_form_cons, ih, ← List.replicate_succ]
    exact min_eq_right (double_accumulate_replicate_nonneg T hT (n + 1) 0 (le_refl 0))

/-- Measured work times of calls that all measure `0`. -/
theorem map_snd_idle (works : List WORK) :
    (works.map fun w => (w, (0 : ℚ))).map Prod.snd = List.replicate works.length 0 := by
  induction works with
  | nil => rfl
  | cons w ws ih => simp only [List.map_cons, List.length_cons, List.replicate_succ, ih]

/-- Lag after the slow call and the calls measured at `0`: the accumulated
debt while that is negative, `0` afterwards. -/
theorem catch_up_lag (c c1 : Consumer) (work0 : WORK) (e0 : ℚ) (works : List WORK)
    (hT : 0 < c._target_frequency_ms) (hlag : c._lag = 0)
    (hrun : c.do_work_calls_double ((work0, e0) :: works.map fun w => (w, (0 : ℚ))) = some c1) :
    c1._lag = min 0 (double_debt c._target_frequency_ms e0 works.length) := by
  rw [do_work_calls_double_lag _ c c1 (le_of_eq hlag) hrun, hlag,
    min_eq_left (double_lag_closed_form_le _ _), List.map_cons, map_snd_idle,
    double_lag_closed_form_cons, double_lag_closed_form_replicate _ (le_of_lt hT),
    ← double_debt_eq, min_comm]

/-- C8 (amended). Catch-up after one slow item in the code's `double`
arithmetic: with a target period `T > 0` that is a `double`, lag `0`, a first
call with measured work time `e0` and later calls with measured work time `0`,
none of them overflowing, let `double_debt T e0 k` be `k * T - d` for the debt
`d = e0 - T` as the code accumulates it, each difference and sum rounded.
After `k - 1` later calls the lag is `min 0` of the accumulated debt; the
`k`-th later call sleeps `max 0 (min T (double_debt T e0 k))`, the value of
`max 0 (min T (k * T - d))` whenever the accumulation is exact, and does not
sleep exactly while the accumulated debt is not positive; once the
accumulated debt is positive every later call sleeps the full `T` with lag
`0`; and once it is not negative the measured work times plus pacing sleeps of
the first `N` calls add up to `N * T` plus the rounding errors of these calls,
not to `N * T` plus the debt. Here `k = works.length + 1` and
`N = works.length + 1`. -/
theorem catch_up_double (c c1 : Consumer) (work0 : WORK) (e0 : ℚ) (works : List WORK)
    (work : WORK) (r : DoWork)
    (hT : 0 < c._target_frequency_ms)
    (hTd : round_double c._target_frequency_ms = c._target_frequency_ms)
    (hlag : c._lag = 0)
    (hrun : c.do_work_calls_double ((work0, e0) :: works.map fun w => (w, (0 : ℚ))) = some c1)
    (hcall : c1.do_work_double work 0 = some r) :
    c1._lag = min 0 (double_debt c._target_frequency_ms e0 works.length) ∧
    r.pacing_ms
      = max 0 (min c._target_frequency_ms
          (double_debt c._target_frequency_ms e0 (works.length + 1))) ∧
    (double_debt c._target_frequency_ms e0 (works.length + 1)
        = (works.length + 1 : ℕ) * c._target_frequency_ms - (e0 - c._target_frequency_ms) →
      r.pacing_ms
        = max 0 (min c._target_frequency_ms
            ((works.length + 1 : ℕ) * c._target_frequency_ms
              - (e0 - c._target_frequency_ms)))) ∧
    (r.pacing_sleep = none
      ↔ double_debt c._target_frequency_ms e0 (works.length + 1) ≤ 0) ∧
    (0 < double_debt c._target_frequency_ms e0 works.length →
      r.pacing_sleep = some c._target_frequency_ms ∧ r.consumer._lag = 0) ∧
    (0 ≤ double_debt c._target_frequency_ms e0 works.length →
      ∃ t, c.total_time_double ((work0, e0) :: works.map fun w => (w, (0 : ℚ))) = some t ∧
        t = (works.length + 1 : ℕ) * c._target_frequency_ms
            + c.rounding_errors ((work0, e0) :: works.map fun w => (w, (0 : ℚ)))) := by
  have hl := catch_up_lag c c1 work0 e0 works hT hlag hrun
  have ht1 := do_work_calls_double_target _ c c1 hrun
  have hreq := do_work_double_eq hcall
  subst hreq
  have hnext : double_debt c._target_frequency_ms e0 (works.length + 1)
      = round_double (c._target_frequency_ms
          + double_debt c._target_frequency_ms e0 works.length) := by
    rw [double_debt, sub_zero, hTd]
  have hgain : round_double (round_double (c1._target_frequency_ms - 0) + c1._lag)
      = round_double (c._target_frequency_ms
          + min 0 (double_debt c._target_frequency_ms e0 works.length)) := by
    rw [ht1, sub_zero, hTd, hl]
  have hpace : (c1.do_work_rounded work 0).pacing_ms
      = max 0 (min c._target_frequency_ms
          (double_debt c._target_frequency_ms e0 (works.length + 1))) := by
    rw [do_work_rounded_pacing_ms, hgain, hnext]
    rcases le_or_lt (double_debt c._target_frequency_ms e0 works.length) 0 with hD | hD
    · have hle : round_double (c._target_frequency_ms
          + double_debt c._target_frequency_ms e0 works.length) ≤ c._target_frequency_ms := by
        have := round_double_mono (show c._target_frequency_ms
          + double_debt c._target_frequency_ms e0 works.length ≤ c._target_frequency_ms
          by linarith)
        rwa [hTd] at this
      rw [min_eq_right hD, min_eq_right hle]
    · have hge : c._target_frequency_ms ≤ round_double (c._target_frequency_ms
          + double_debt c._target_frequency_ms e0 works.length) := by
        have := round_double_mono (show c._target_frequency_ms ≤ c._target_frequency_ms
          + double_debt c._target_frequency_ms e0 works.length by linarith)
        rwa [hTd] at this
      rw [min_eq_left (le_of_lt hD), add_zero, hTd, min_eq_left hge]
  refine ⟨hl, hpace, fun hexact => by rw [hpace, hexact], ?_, ?_, ?_⟩
  · rw [do_work_rounded_no_sleep_iff, hgain, hnext]
    rcases le_or_lt (double_debt c._target_frequency_ms e0 works.length) 0 with hD | hD
    · rw [min_eq_right hD]
    · have hge : c._target_frequency_ms ≤ round_double (c._target_frequency_ms
          + double_debt c._target_frequency_ms e0 works.length) := by
        have := round_double_mono (show c._target_frequency_ms ≤ c._target_frequency_ms
          + double_debt c._target_frequency_ms e0 works.length by linarith)
        rwa [hTd] at this
      rw [min_eq_left (le_of_lt hD), add_zero, hTd]
      constructor <;> intro h <;> linarith
  · intro hD
    have hs : round_double (c1._target_frequency_ms - 0) = c._target_frequency_ms := by
      rw [ht1, sub_zero, hTd]
    have hg : round_double (c._target_frequency_ms + c1._lag) = c._target_frequency_ms := by
      rw [hl, min_eq_left (le_of_lt hD), add_zero, hTd]
    rw [do_work_rounded_of_pos c1 work 0 hs hg hT]
    exact ⟨rfl, rfl⟩
  · intro hD
    obtain ⟨t, ht, hteq⟩ := total_time_double_eq _ c c1 hrun
    refine ⟨t, ht, ?_⟩
    rw [hteq, hl, min_eq_left hD, hlag]
    simp only [List.length_cons, List.length_map]
    ring

/-- The time of a sequence of calls in `double` arithmetic whose first call
returns. -/
theorem total_time_double_step (c : Consumer) (work : WORK) (e : ℚ)
    (rest : List (WORK × ℚ)) {r : DoWork} (h : c.do_work_double work e = some r) :
    c.total_time_double ((work, e) :: rest)
      = (r.consumer.total_time_double rest).map fun t => e + r.pacing_ms + t := by
  rw [Consumer.total_time_double, h, Option.some_bind]

/-- The time of the first four calls of the run at `3` Hz. -/
theorem third_total_4 :
    (⟨2, 20, 5864062014805333 / 2 ^ 44, 0⟩ : Consumer).total_time_double
        [(WORK.HEAVY, 1000), (WORK.SMALL, 0), (WORK.SMALL, 0), (WORK.SMALL, 0)]
      = some (1000 + 5864062014805331 / 2 ^ 44) := by
  rw [total_time_double_step _ _ _ _ third_call_1, total_time_double_step _ _ _ _ third_call_2,
    total_time_double_step _ _ _ _ third_call_3, total_time_double_step _ _ _ _ third_call_4]
  simp only [Consumer.total_time_double, Option.map_some', DoWork.pacing_ms,
    Option.getD_some, Option.getD_none, Option.some.injEq]
  norm_num

/-- Counterexample to C8, in the code's `double` arithmetic:
`Consumer(2, 20, 3)` stores the period `T = 5864062014805333 / 2 ^ 44`; the
first call measures `1000 > T` and the next three measure `0`. The third of
these (`k = 3`) sleeps `5864062014805331 / 2 ^ 44`, where
`max 0 (min T (3 * T - d))` with `d = 1000 - T` is
`5864062014805332 / 2 ^ 44`; and although `(4 - 1) * T ≥ d`, the measured work
times plus pacing sleeps of the four calls are not `4 * T`. -/
theorem catch_up_formula_fails_in_double :
    Consumer.new_double 2 20 3 = some ⟨2, 20, 5864062014805333 / 2 ^ 44, 0⟩ ∧
    (0 : ℚ) < 5864062014805333 / 2 ^ 44 ∧
    (5864062014805333 / 2 ^ 44 : ℚ) < 1000 ∧
    (⟨2, 20, 5864062014805333 / 2 ^ 44, 0⟩ : Consumer).do_work_calls_double
        [(WORK.HEAVY, 1000), (WORK.SMALL, 0), (WORK.SMALL, 0)]
      = some ⟨2, 20, 5864062014805333 / 2 ^ 44, -(1 / 2 ^ 43)⟩ ∧
    (⟨2, 20, 5864062014805333 / 2 ^ 44, -(1 / 2 ^ 43)⟩ : Consumer).do_work_double WORK.SMALL 0
      = some
          { consumer := ⟨2, 20, 5864062014805333 / 2 ^ 44, 0⟩
            work_sleep := some 2
            pacing_sleep := some (5864062014805331 / 2 ^ 44) } ∧
    max (0 : ℚ) (min (5864062014805333 / 2 ^ 44)
        (3 * (5864062014805333 / 2 ^ 44) - (1000 - 5864062014805333 / 2 ^ 44)))
      = 5864062014805332 / 2 ^ 44 ∧
    (5864062014805331 / 2 ^ 44 : ℚ) ≠ 5864062014805332 / 2 ^ 44 ∧
    (1000 - 5864062014805333 / 2 ^ 44 : ℚ) ≤ (4 - 1) * (5864062014805333 / 2 ^ 44) ∧
    (⟨2, 20, 5864062014805333 / 2 ^ 44, 0⟩ : Consumer).total_time_double
        [(WORK.HEAVY, 1000), (WORK.SMALL, 0), (WORK.SMALL, 0), (WORK.SMALL, 0)]
      = some (1000 + 5864062014805331 / 2 ^ 44) ∧
    (1000 + 5864062014805331 / 2 ^ 44 : ℚ) ≠ 4 * (5864062014805333 / 2 ^ 44) := by
  refine ⟨new_double_third, by norm_num, by norm_num, third_run_3, third_call_4, ?_,
    by norm_num, by norm_num, third_total_4, by norm_num⟩
  rw [min_eq_right (by norm_num), max_eq_right (by norm_num)]
  norm_num

/-- Witness of C8 (amended) on the run of `Consumer(2, 20, 3)`: after the slow
call and two calls measured at `0` the lag is the accumulated debt
`-(1 / 2 ^ 43)`, and the third such call sleeps the accumulated
`5864062014805331 / 2 ^ 44`. -/
theorem catch_up_double_witness :
    (-(1 / 2 ^ 43) : ℚ) = min 0 (double_debt (5864062014805333 / 2 ^ 44) 1000 2) ∧
    (5864062014805331 / 2 ^ 44 : ℚ)
      = max 0 (min (5864062014805333 / 2 ^ 44)
          (double_debt (5864062014805333 / 2 ^ 44) 1000 3)) ∧
    ¬ double_debt (5864062014805333 / 2 ^ 44) 1000 3 ≤ 0 := by
  have h := catch_up_double ⟨2, 20, 5864062014805333 / 2 ^ 44, 0⟩ _ WORK.HEAVY 1000
    [WORK.SMALL, WORK.SMALL] WORK.SMALL _ (by norm_num) round_double_third_period rfl
    third_run_3 third_call_4
  refine ⟨h.1, h.2.1, fun hle => ?_⟩
  have hnone := h.2.2.2.1.mpr hle
  exact absurd hnone (by simp)

end SoftRealtimeLoop
